import Mathlib

/-!
Verification of the chunking and retrieval pipeline of the PersonalChatbot
repository (`backend/rag/chunking.py` and `backend/rag/retrieval.py`).

Text is modelled as `List Char`; Python floats that only ever hold exact
multiples of 0.5 are modelled as rationals; Python dicts (insertion ordered)
are modelled as association lists.
-/

set_option maxHeartbeats 1600000
set_option allowUnsafeReducibility true

attribute [local semireducible] Rat.mul Rat.add Rat.sub Rat.div Rat.inv Rat.blt

namespace PersonalChatbot

/-- Text is modelled as a list of characters. -/
abbrev Str := List Char

/-- Conversion from a Lean string literal to the character-list model. -/
def strL (s : String) : Str := s.data

/-- Whitespace class of Python (`str.strip`, `\s`): space, tab, newline,
carriage return, vertical tab, form feed. -/
def isPyWS (c : Char) : Bool :=
  c = ' ' || c = '\t' || c = '\n' || c = '\r' || c = Char.ofNat 11 || c = Char.ofNat 12

/-- Word character of Python regexes (`\w`, used for `\b` boundaries):
alphanumeric or underscore. -/
def isWordChar (c : Char) : Bool := c.isAlphanum || c = '_'

/-- Wordness of an optional character; the ends of the string count as
non-word for `\b` purposes. -/
def optWord : Option Char → Bool
  | some c => isWordChar c
  | none => false

/-- Model of Python `str.strip()`: drop whitespace from both ends. -/
def trimmed (l : Str) : Str :=
  ((l.dropWhile isPyWS).reverse.dropWhile isPyWS).reverse

/-- All ways to split a list into a (reversed) prefix and a suffix; used to
model a regex engine scanning every start position.  The first component is
the reversed prefix, so its head is the character just before the suffix. -/
def splitsAux (pre : List Char) : List Char → List (List Char × List Char)
  | [] => [(pre, [])]
  | c :: cs => (pre, c :: cs) :: splitsAux (c :: pre) cs

/-- Every (reversed prefix, suffix) split of a string. -/
def splits (cs : Str) : List (List Char × List Char) := splitsAux [] cs

/-- Case-insensitive literal match at the head of a suffix; returns the rest
of the suffix when the literal (given in lowercase) matches. -/
def tryLitCI (w : Str) (suf : Str) : Option Str :=
  if (suf.take w.length).map Char.toLower = w then some (suf.drop w.length) else none

/-- Word-boundary search for a case-insensitive alternation of literal words
(`\b(w1|w2|...)\b` in Python regex terms).  All words must start and end with
word characters, so the boundary check reduces to requiring non-word
neighbours. -/
def wordAltSearch (ws : List Str) (cs : Str) : Bool :=
  (splits cs).any fun pr =>
    !optWord pr.1.head? &&
      ws.any fun w =>
        match tryLitCI w pr.2 with
        | some rest => !optWord rest.head?
        | none => false

/-- Month names of `MONTH_RE` (lowercased; matching is case-insensitive). -/
def monthWords : List Str :=
  [strL "jan", strL "feb", strL "mar", strL "apr", strL "may", strL "jun",
   strL "jul", strL "aug", strL "sep", strL "sept", strL "oct", strL "nov", strL "dec"]

/-- Model of `MONTH_RE.search`: `\b(Jan|...|Dec)\b`, case-insensitive. -/
def monthSearch (cs : Str) : Bool := wordAltSearch monthWords cs

/-- Model of `YEAR_RE.search`: `\b(19|20)\d{2}\b`. -/
def yearSearch (cs : Str) : Bool :=
  (splits cs).any fun pr =>
    !optWord pr.1.head? &&
      match pr.2 with
      | a :: b :: c :: d :: rest =>
        ((a = '1' && b = '9') || (a = '2' && b = '0')) && c.isDigit && d.isDigit &&
          !optWord rest.head?
      | _ => false

/-- One arm of `DATE_RANGE_RE`: a month name with its trailing `\b`, an
optional dot, at least one whitespace, then exactly four digits; returns every
possible rest of the string after such a match. -/
def monthYearRests (suf : Str) : List Str :=
  monthWords.filterMap fun m =>
    match tryLitCI m suf with
    | some r1 =>
      if optWord r1.head? then none
      else
        let r2 := match r1 with
          | '.' :: r => r
          | r => r
        if (r2.takeWhile isPyWS).isEmpty then none
        else
          match r2.dropWhile isPyWS with
          | a :: b :: c :: d :: r4 =>
            if a.isDigit && b.isDigit && c.isDigit && d.isDigit then some r4 else none
          | _ => none
    | none => none

/-- Model of `DATE_RANGE_RE.search`: `Month[.] yyyy – (Month[.] yyyy|Present)`
with unicode dashes, case-insensitive. -/
def dateRangeSearch (cs : Str) : Bool :=
  (splits cs).any fun pr =>
    !optWord pr.1.head? &&
      (monthYearRests pr.2).any fun r4 =>
        match (r4.dropWhile isPyWS) with
        | dash :: r5 =>
          (dash = Char.ofNat 0x2013 || dash = Char.ofNat 0x2014 || dash = '-') &&
            (let r6 := r5.dropWhile isPyWS
             !(monthYearRests r6).isEmpty ||
               (match tryLitCI (strL "present") r6 with
                | some rest => !optWord rest.head?
                | none => false))
        | [] => false

/-- Model of `ORG_SUFFIX_RE.search`. -/
def orgSuffixSearch (cs : Str) : Bool :=
  wordAltSearch
    [strL "inc", strL "llc", strL "ltd", strL "technologies", strL "technology",
     strL "university", strL "college", strL "labs", strL "laboratory",
     strL "corp", strL "corporation", strL "company"] cs

/-- Model of `ROLE_HINT_RE.search`. -/
def roleHintSearch (cs : Str) : Bool :=
  wordAltSearch
    [strL "intern", strL "engineer", strL "developer", strL "manager",
     strL "analyst", strL "assistant", strL "research", strL "fellow",
     strL "lead", strL "coordinator", strL "consultant", strL "editor"] cs

/-- Character class `[A-Za-z .'-]` of `LOCATION_TAIL_RE`. -/
def isLocTailChar (c : Char) : Bool :=
  c.isAlpha || c = ' ' || c = '.' || c = Char.ofNat 39 || c = '-'

/-- Model of `LOCATION_TAIL_RE.search`:
`\b[A-Za-z][A-Za-z .'-]+,\s*[A-Z]{2}\b` (a trailing "City, ST" pattern). -/
def locationTailSearch (cs : Str) : Bool :=
  (splits cs).any fun pr =>
    !optWord pr.1.head? &&
      match pr.2 with
      | c0 :: rest =>
        c0.isAlpha &&
          (let run := rest.takeWhile isLocTailChar
           !run.isEmpty &&
             match rest.dropWhile isLocTailChar with
             | ',' :: r2 =>
               (match r2.dropWhile isPyWS with
                | u1 :: u2 :: r3 => u1.isUpper && u2.isUpper && !optWord r3.head?
                | _ => false)
             | _ => false)
      | [] => false

/-- Character class of the local part of `EMAIL_RE`: `[A-Za-z0-9._%+-]`. -/
def isEmailLocalChar (c : Char) : Bool :=
  c.isAlphanum || c = '.' || c = '_' || c = '%' || c = '+' || c = '-'

/-- Character class of the domain part of `EMAIL_RE`: `[A-Za-z0-9.-]`. -/
def isEmailDomChar (c : Char) : Bool := c.isAlphanum || c = '.' || c = '-'

/-- Character class of the TLD part of `EMAIL_RE`: `[A-Z|a-z]` (the literal
`|` inside the class is part of the source pattern). -/
def isEmailTldChar (c : Char) : Bool := c.isAlpha || c = '|'

/-- Boundary between two optional characters: `\b` holds when exactly one
side is a word character. -/
def isBoundary (a b : Option Char) : Bool := optWord a != optWord b

/-- Model of `EMAIL_RE.search`:
`\b[A-Za-z0-9._%+-]+@[A-Za-z0-9.-]+\.[A-Z|a-z]{2,}\b`.  A match exists iff
some split decomposes as boundary, non-empty local part, `@`, non-empty
domain part, `.`, a TLD of length at least 2, and a final boundary; the
backtracking engine finds a match exactly when one exists. -/
def emailSearch (cs : Str) : Bool :=
  (splits cs).any fun pr =>
    isBoundary pr.1.head? pr.2.head? &&
      ((List.range pr.2.length).any fun k =>
        let loc := pr.2.take (k + 1)
        loc.all isEmailLocalChar &&
          match pr.2.drop (k + 1) with
          | '@' :: rest =>
            (List.range rest.length).any fun d =>
              let dom := rest.take (d + 1)
              dom.all isEmailDomChar &&
                match rest.drop (d + 1) with
                | '.' :: tl =>
                  (List.range tl.length).any fun t =>
                    let tld := tl.take (t + 2)
                    tld.length = t + 2 && tld.all isEmailTldChar &&
                      isBoundary tld.getLast? (tl.drop (t + 2)).head?
                | _ => false
          | _ => false)

/-- Substring test used to implement Python's `in` operator on strings:
the needle is a prefix of some suffix of the haystack. -/
def strContains (hay needle : Str) : Bool :=
  (splits hay).any fun pr => needle.isPrefixOf pr.2

/-- Model of `LINKEDIN_RE.search`: `\blinkedin\.com/in/[\w-]+`,
case-insensitive. -/
def linkedinSearch (cs : Str) : Bool :=
  (splits cs).any fun pr =>
    !optWord pr.1.head? &&
      match tryLitCI (strL "linkedin.com/in/") pr.2 with
      | some rest =>
        match rest.head? with
        | some c => isWordChar c || c = '-'
        | none => false
      | none => false

/-- Model of `GITHUB_RE.search`: `\bgithub\.com/[\w-]+`, case-insensitive. -/
def githubSearch (cs : Str) : Bool :=
  (splits cs).any fun pr =>
    !optWord pr.1.head? &&
      match tryLitCI (strL "github.com/") pr.2 with
      | some rest =>
        match rest.head? with
        | some c => isWordChar c || c = '-'
        | none => false
      | none => false

/-- Model of `is_contact_info_line`. -/
def is_contact_info_line (line : Str) : Bool :=
  let lower := line.map Char.toLower
  emailSearch line || linkedinSearch line || githubSearch line ||
    strContains lower (strL "linkedin.com") || strContains lower (strL "github.com")

/-- When `\s*/\s*` matches at the head of the list, the rest of the list
after the (greedy) match; `none` when there is no slash at the end of the
leading whitespace run. -/
def wsSlashRest (cs : Str) : Option Str :=
  match cs.dropWhile isPyWS with
  | c :: r => if c = '/' then some (r.dropWhile isPyWS) else none
  | [] => none

theorem dropWhile_length_le (p : Char → Bool) (l : List Char) :
    (l.dropWhile p).length ≤ l.length := by
  induction l with
  | nil => simp
  | cons c cs ih =>
    by_cases h : p c <;> simp [List.dropWhile_cons, h] <;> omega

theorem wsSlashRest_length {cs rest : Str} (h : wsSlashRest cs = some rest) :
    rest.length < cs.length := by
  unfold wsSlashRest at h
  cases hd : cs.dropWhile isPyWS with
  | nil => rw [hd] at h; exact absurd h (by simp)
  | cons c r =>
    rw [hd] at h
    dsimp only at h
    have h2 : (c :: r).length ≤ cs.length := hd ▸ dropWhile_length_le _ _
    simp only [List.length_cons] at h2
    by_cases hc : c = '/'
    · rw [if_pos hc, Option.some.injEq] at h
      have h1 : rest.length ≤ r.length := h ▸ dropWhile_length_le _ _
      omega
    · rw [if_neg hc] at h
      exact absurd h (by simp)

/-- Scanner of `re.sub(r"\s*/\s*", " / ", l)`, with a structural fuel bound
(one unit of fuel per consumed character; the wrapper passes the length of
the list, which always suffices, so the fuel-exhausted branch is never
reached on the wrapper's calls). -/
def subSlashF : Nat → Str → Str
  | 0, cs => cs
  | fuel + 1, cs =>
    match wsSlashRest cs with
    | some rest => ' ' :: '/' :: ' ' :: subSlashF fuel rest
    | none =>
      match cs with
      | [] => []
      | c :: cs' => c :: subSlashF fuel cs'

/-- Model of `re.sub(r"\s*/\s*", " / ", l)`: every slash, together with the
whitespace around it, becomes a single ` / `; scanning resumes after each
replacement, as `re.sub` does. -/
def subSlash (cs : Str) : Str := subSlashF cs.length cs

/-- Space-or-tab class `[ \t]`. -/
def isST (c : Char) : Bool := c = ' ' || c = '\t'

/-- Fuel-bounded scanner of `re.sub(r"[ \t]+", " ", l)`. -/
def collapseSTF : Nat → Str → Str
  | 0, cs => cs
  | fuel + 1, cs =>
    match cs with
    | [] => []
    | c :: cs' =>
      if isST c then ' ' :: collapseSTF fuel (cs'.dropWhile isST)
      else c :: collapseSTF fuel cs'

/-- Model of `re.sub(r"[ \t]+", " ", l)`: collapse each run of spaces and
tabs to one space. -/
def collapseST (cs : Str) : Str := collapseSTF cs.length cs

/-- Model of `canonicalize_header`: strip, normalize spacing around `/`,
collapse space/tab runs. -/
def canonicalize_header (line : Str) : Str := collapseST (subSlash (trimmed line))

/-- The fixed header vocabulary `SECTION_HEADERS`. -/
def sectionHeaders : List Str :=
  [strL "EDUCATION",
   strL "PROFESSIONAL EXPERIENCE",
   strL "PROFESSIONAL EXPERIENCE / LEADERSHIP",
   strL "PROFESSIONAL EXPERIENCE/LEADERSHIP",
   strL "PROJECTS",
   strL "TECHNICAL / SOFT SKILLS",
   strL "TECHNICAL/SOFT SKILLS",
   strL "SKILLS",
   strL "SOCIALS",
   strL "CONTACT",
   strL "CONTACT INFO"]

/-- Model of `normalize_text`: carriage returns become newlines, space/tab
runs collapse to one space, and the result is stripped. -/
def normalize_text (pdf_text : Str) : Str :=
  trimmed (collapseST (pdf_text.map fun c => if c = '\r' then '\n' else c))

/-- Model of Python `str.rstrip()`. -/
def rtrimmed (l : Str) : Str := (l.reverse.dropWhile isPyWS).reverse

/-- Model of `to_lines`: normalize, split on newlines, right-strip each
line, and drop lines that are empty after stripping. -/
def to_lines (pdf_text : Str) : List Str :=
  (((normalize_text pdf_text).splitOn '\n').map rtrimmed).filter
    fun ln => !(trimmed ln).isEmpty

/-- Section maps model Python's insertion-ordered `dict[str, list[str]]`. -/
abbrev SecMap := List (Str × List Str)

/-- Lookup in a section map. -/
def alFind (m : SecMap) (k : Str) : Option (List Str) :=
  (m.find? fun p => p.1 == k).map (·.2)

/-- Lookup with default `[]` in a section map. -/
def alGetD (m : SecMap) (k : Str) : List Str := (alFind m k).getD []

/-- Key-membership test in a section map. -/
def alHas (m : SecMap) (k : Str) : Bool := m.any fun p => p.1 == k

/-- Model of `d[k] = v`: replace in place when the key exists, else append
(Python dicts keep insertion order). -/
def alSet (m : SecMap) (k : Str) (v : List Str) : SecMap :=
  if alHas m k then m.map fun p => if p.1 == k then (p.1, v) else p
  else m ++ [(k, v)]

/-- Model of `d.setdefault(k, [])` when only the side effect matters. -/
def alSetD (m : SecMap) (k : Str) : SecMap :=
  if alHas m k then m else m ++ [(k, [])]

/-- Model of `d.setdefault(k, []).append(v)`. -/
def alAppend (m : SecMap) (k : Str) (v : Str) : SecMap :=
  if alHas m k then m.map fun p => if p.1 == k then (p.1, p.2 ++ [v]) else p
  else m ++ [(k, [v])]

/-- Model of `d.pop(k, None)`. -/
def alPop (m : SecMap) (k : Str) : SecMap := m.filter fun p => !(p.1 == k)

/-- Loop state of `split_by_sections`: the section map, the currently open
section, and the first detected header (if any). -/
structure SbsState where
  sections : SecMap
  current : Str
  firstName : Option Str

/-- One iteration of the `split_by_sections` loop over a raw line. -/
def sbsStep (st : SbsState) (raw : Str) : SbsState :=
  let mh := canonicalize_header raw
  if sectionHeaders.contains mh then
    let st1 :=
      if st.firstName = none then
        let unk := alGetD st.sections (strL "UNKNOWN")
        let secs1 :=
          if unk ≠ [] then
            let contact := unk.filter fun l => is_contact_info_line l
            let other := unk.filter fun l => !is_contact_info_line l
            let secs2 :=
              if contact ≠ [] then
                alSet (alSet st.sections mh (other.drop 1)) (strL "SOCIALS")
                  (other.take 1 ++ contact)
              else
                alSet st.sections mh unk
            alSet secs2 (strL "UNKNOWN") []
          else
            alSet st.sections mh []
        { sections := secs1, current := st.current, firstName := some mh }
      else st
    { sections := alSetD st1.sections mh, current := mh, firstName := st1.firstName }
  else
    { st with sections := alAppend st.sections st.current raw }

/-- Model of `split_by_sections`. -/
def split_by_sections (lines : List Str) : SecMap :=
  let st := lines.foldl sbsStep
    ⟨[(strL "UNKNOWN", [])], strL "UNKNOWN", none⟩
  if alGetD st.sections (strL "UNKNOWN") = [] then alPop st.sections (strL "UNKNOWN")
  else st.sections

/-- Bullet symbols of the first alternative of `BULLET_REGEX`. -/
def bulletSyms : List Char :=
  ['•', '·', '●', '▪', '◦', '‣', '⁃', '–', '—', '-', '*', 'o']

/-- The `[.)]` class of `BULLET_REGEX`. -/
def isDotParen (c : Char) : Bool := c = '.' || c = ')'

/-- At least one whitespace character follows (`\s+`). -/
def wsFollows (rest : Str) : Bool :=
  match rest.head? with
  | some x => isPyWS x
  | none => false

/-- Model of `BULLET_REGEX.match`: `^\s*(sym|\d{1,2}[.)]|[a-zA-Z][.)])\s+`. -/
def bulletMatch (l : Str) : Bool :=
  match l.dropWhile isPyWS with
  | [] => false
  | c :: rest =>
    (bulletSyms.contains c && wsFollows rest) ||
      (c.isDigit &&
        (match rest with
         | d :: rest2 =>
           (isDotParen d && wsFollows rest2) ||
             (d.isDigit &&
               match rest2 with
               | e :: rest3 => isDotParen e && wsFollows rest3
               | [] => false)
         | [] => false)) ||
      (c.isAlpha &&
        match rest with
        | d :: rest2 => isDotParen d && wsFollows rest2
        | [] => false)

/-- Model of `leading_spaces`: the number of leading space characters. -/
def leading_spaces (line : Str) : Nat := (line.takeWhile fun c => c = ' ').length

/-- Model of `is_bullet` with its default `indent_threshold = 2`. -/
def is_bullet (line : Str) : Bool :=
  bulletMatch line || decide (2 ≤ leading_spaces line)

/-- Model of `_is_sentence_like_continuation`. -/
def isSentenceLikeContinuation (line : Str) : Bool :=
  let s := trimmed line
  match s with
  | [] => false
  | c :: _ => c.isLower || (decide (90 < s.length) && s.contains ',')

/-- Tail character class `[A-Za-z&\.\-']` of the title-case word pattern. -/
def isTcTailChar (c : Char) : Bool :=
  c.isAlpha || c = '&' || c = '.' || c = '-' || c = Char.ofNat 39

/-- Fuel-bounded scanner for the title-case word pattern. -/
def tcWordsF : Nat → Str → List Str
  | 0, _ => []
  | fuel + 1, cs =>
    match cs with
    | [] => []
    | c :: cs' =>
      if c.isAlpha &&
          (match cs'.head? with
           | some d => isTcTailChar d
           | none => false) then
        (c :: cs'.takeWhile isTcTailChar) :: tcWordsF fuel (cs'.dropWhile isTcTailChar)
      else tcWordsF fuel cs'

/-- Model of `re.findall(r"[A-Za-z][A-Za-z&\.\-']+", s)`: the non-overlapping
maximal words of length at least two. -/
def tcWords (cs : Str) : List Str := tcWordsF cs.length cs

/-- Model of `_titlecase_score` as an exact rational. -/
def titlecaseScore (s : Str) : ℚ :=
  let ws := tcWords s
  if ws.isEmpty then 0
  else
    ((ws.countP fun w =>
        match w with
        | c :: _ => c.isUpper
        | [] => false : ℕ) : ℚ) / (ws.length : ℚ)

/-- The separators `ENTITY_SEP_CHARS`, in priority order. -/
def entitySepChars : List Char := ['|', '—', '–']

/-- Model of `_split_on_entity_sep`: split once on the first separator
character that occurs (priority order), stripping both sides. -/
def splitOnEntitySep (line : Str) : List Str :=
  match entitySepChars.find? (fun c => line.contains c) with
  | some c =>
    [trimmed (line.takeWhile fun x => x != c),
     trimmed ((line.dropWhile fun x => x != c).tail)]
  | none => [trimmed line]

/-- Model of `_has_date_signal`: a date range, a month+year pair, or a bare
year. -/
def hasDateSignal (s : Str) : Bool :=
  dateRangeSearch s || (monthSearch s && yearSearch s) || yearSearch s

/-- Model of `_looks_like_org_name`. -/
def looksLikeOrgName (s : Str) : Bool :=
  orgSuffixSearch s ||
    (decide ((7 : ℚ) / 10 ≤ titlecaseScore s) && !roleHintSearch s)

/-- Model of `is_probable_company_header`. -/
def is_probable_company_header (line : Str) : Bool :=
  let s := trimmed line
  match s with
  | [] => false
  | c :: _ =>
    !is_bullet s && c.isUpper && decide (s.length ≤ 80) && !hasDateSignal s &&
      !isSentenceLikeContinuation s &&
      (looksLikeOrgName ((splitOnEntitySep s).headD []) ||
        (locationTailSearch s && decide ((6 : ℚ) / 10 ≤ titlecaseScore s) &&
          !roleHintSearch s))

/-- Model of `is_probable_role_header`. -/
def is_probable_role_header (line : Str) : Bool :=
  let s := trimmed line
  !s.isEmpty && !is_bullet s && !isSentenceLikeContinuation s &&
    hasDateSignal s && roleHintSearch s

/-- Model of `is_probable_project_header`. -/
def is_probable_project_header (line : Str) : Bool :=
  let s := trimmed line
  if s.isEmpty || is_bullet s then false
  else if s.contains '|' then !(trimmed (s.takeWhile fun x => x != '|')).isEmpty
  else if decide (90 < s.length) then false
  else decide ((70 : ℚ) / 100 ≤ titlecaseScore s)

/-- Model of `_extract_project_entity`. -/
def extractProjectEntity (line : Str) : Str :=
  let s := trimmed line
  if s.contains '|' then trimmed (s.takeWhile fun x => x != '|') else s

/-- An entity block `{"entity": ..., "content": ...}`. -/
structure EntityBlock where
  entity : Str
  content : Str
  deriving DecidableEq, Repr

/-- Loop state of `group_by_entity`. -/
structure GbeState where
  blocks : List EntityBlock
  currentEntity : Option Str
  buf : List Str
  currentCompany : Option Str

/-- Python truthiness of the optional entity string. -/
def entityTruthy : Option Str → Bool
  | some e => !e.isEmpty
  | none => false

/-- Model of the inner `flush()` of `group_by_entity`: emit the buffer as a
block when the current entity is truthy and the buffer non-empty, then reset
entity and buffer (the company survives). -/
def gbeFlush (st : GbeState) : GbeState :=
  { blocks :=
      if entityTruthy st.currentEntity && !st.buf.isEmpty then
        st.blocks ++
          [⟨st.currentEntity.getD [], trimmed (List.intercalate (strL "\n") st.buf)⟩]
      else st.blocks,
    currentEntity := none, buf := [], currentCompany := st.currentCompany }

/-- The current entity, defaulting to `"General"` when none is open (the
`if current_entity is None: current_entity = "General"` idiom). -/
def defaultGeneral : Option Str → Option Str
  | some e => some e
  | none => some (strL "General")

/-- The current entity, defaulting to the current company and then to
`"General"` (the `current_entity = current_company or "General"` idiom). -/
def defaultEntity (st : GbeState) : Option Str :=
  match st.currentEntity with
  | some e => some e
  | none =>
    some (match st.currentCompany with
          | some cmp => if cmp.isEmpty then strL "General" else cmp
          | none => strL "General")

/-- One iteration of the `group_by_entity` loop over a section line. -/
def gbeStep (sec : Str) (st : GbeState) (ln : Str) : GbeState :=
  let s := trimmed ln
  if s.isEmpty then st
  else if (strL "PROFESSIONAL EXPERIENCE").isPrefixOf sec then
    if isSentenceLikeContinuation s then
      { st with currentEntity := defaultEntity st, buf := st.buf ++ [s] }
    else if is_probable_company_header s then
      let st1 := if st.currentEntity.isSome then gbeFlush st else st
      let company := trimmed ((splitOnEntitySep s).headD [])
      { st1 with currentEntity := some company, buf := st1.buf ++ [s],
                 currentCompany := some company }
    else if is_probable_role_header s then
      { st with currentEntity := defaultEntity st, buf := st.buf ++ [s] }
    else
      { st with currentEntity := defaultEntity st, buf := st.buf ++ [s] }
  else if sec = strL "PROJECTS" then
    if s.contains '|' && !is_bullet s then
      let st1 := if st.currentEntity.isSome then gbeFlush st else st
      { st1 with currentEntity := some (extractProjectEntity s), buf := st1.buf ++ [s] }
    else if is_probable_project_header s then
      let st1 := if st.currentEntity.isSome then gbeFlush st else st
      { st1 with currentEntity := some (extractProjectEntity s), buf := st1.buf ++ [s] }
    else
      { st with currentEntity := defaultGeneral st.currentEntity, buf := st.buf ++ [s] }
  else
    { st with currentEntity := defaultGeneral st.currentEntity, buf := st.buf ++ [s] }

/-- Model of `group_by_entity`. -/
def group_by_entity (sec : Str) (sectionLines : List Str) : List EntityBlock :=
  let st := sectionLines.foldl (gbeStep sec) ⟨[], none, [], none⟩
  let blocks :=
    if entityTruthy st.currentEntity && !st.buf.isEmpty then
      st.blocks ++
        [⟨st.currentEntity.getD [], trimmed (List.intercalate (strL "\n") st.buf)⟩]
    else st.blocks
  if blocks.isEmpty && !sectionLines.isEmpty then
    [⟨strL "General", trimmed (List.intercalate (strL "\n") (sectionLines.map trimmed))⟩]
  else blocks

/-- Forward extension of a cut point to the next non-alphanumeric character
(the `while k < n and text[k].isalnum(): k += 1` loop). -/
def swcExtend (text : Str) (j : Nat) : Nat :=
  j + ((text.drop j).takeWhile Char.isAlphanum).length

/-- The adjusted cut point of one window of `sliding_window_chunks`: the raw
cut `min (i + size) n`, extended to the next non-alphanumeric character when
it would land inside an alphanumeric run before the end of the text. -/
def swcJ (text : Str) (size i : Nat) : Nat :=
  let j0 := min (i + size) text.length
  let chunk0 := (text.drop i).take (j0 - i)
  if j0 < text.length && !chunk0.isEmpty &&
      (match chunk0.getLast? with
       | some c => c.isAlphanum
       | none => false) then
    swcExtend text j0
  else j0

/-- The sliding-window loop of `sliding_window_chunks`, instrumented with the
span `[i, j)` of each produced chunk.  The fuel argument decreases
structurally; one unit per iteration, and the wrapper passes the text length,
which always suffices since `i` advances by at least one per iteration. -/
def swcLoopF (text : Str) (size overlap : Nat) : Nat → Nat → List (Str × Nat × Nat)
  | 0, _ => []
  | fuel + 1, i =>
    if i < text.length then
      let j := swcJ text size i
      let chunk := trimmed ((text.drop i).take (j - i))
      let emitted := if chunk.isEmpty then [] else [(chunk, i, j)]
      if text.length ≤ j then emitted
      else emitted ++ swcLoopF text size overlap fuel (i + max 1 (size - overlap))
    else []

/-- Spans of `sliding_window_chunks`: each produced chunk together with the
window `[i, j)` it was cut from. -/
def sliding_window_spans (text : Str) (size overlap : Nat) : List (Str × Nat × Nat) :=
  if text.isEmpty then [] else swcLoopF text size overlap text.length 0

/-- Model of `sliding_window_chunks`. -/
def sliding_window_chunks (text : Str) (size overlap : Nat) : List Str :=
  (sliding_window_spans text size overlap).map (·.1)

/-- The curated canonical-term table `TECH_KEYWORDS` (insertion order). -/
def techKeywords : List (Str × List Str) :=
  [(strL "AI", [strL " ai ", strL "artificial intelligence"]),
   (strL "LLM", [strL " llm", strL "large language model", strL "gpt"]),
   (strL "RAG", [strL " rag", strL "retrieval augmented"]),
   (strL "FastAPI", [strL "fastapi"]),
   (strL "OpenAI API", [strL "openai"]),
   (strL "Socket.IO", [strL "socket.io", strL "socketio"]),
   (strL "WebSockets", [strL "websocket"]),
   (strL "Python", [strL "python"]),
   (strL "TypeScript", [strL "typescript"]),
   (strL "React", [strL "react"]),
   (strL "PostgreSQL", [strL "postgres"]),
   (strL "MongoDB", [strL "mongodb"]),
   (strL "SQLModel", [strL "sqlmodel"]),
   (strL "ChromaDB", [strL "chromadb", strL "chroma"]),
   (strL "Docker", [strL "docker"]),
   (strL "AWS", [strL "aws", strL "amazon web services"]),
   (strL "Supabase", [strL "supabase"]),
   (strL "Vercel", [strL "vercel"]),
   (strL "Railway", [strL "railway"]),
   (strL "Tailwind", [strL "tailwind"]),
   (strL "Node.js", [strL "node.js", strL "nodejs"]),
   (strL "REST", [strL "rest", strL "restful"])]

/-- Model of `re.search(r"\bmentor(ed|ship)?\b", text, re.I)`. -/
def mentorSearch (text : Str) : Bool :=
  wordAltSearch [strL "mentor", strL "mentored", strL "mentorship"] text

/-- Model of `re.search(r"\blead(ing|ership|)\b", text, re.I)`. -/
def leadSearch (text : Str) : Bool :=
  wordAltSearch [strL "lead", strL "leading", strL "leadership"] text

/-- Model of `re.search(r"\bbackend\b|\bapi\b|\brest\b", text, re.I)`. -/
def backendSearch (text : Str) : Bool :=
  wordAltSearch [strL "backend", strL "api", strL "rest"] text

/-- Model of `re.search(r"\breal[- ]time\b|\bsocket\b|\bwebsocket\b", text, re.I)`. -/
def realtimeSearch (text : Str) : Bool :=
  wordAltSearch [strL "real-time", strL "real time", strL "socket", strL "websocket"] text

/-- Order-preserving deduplication with an explicit seen set, as in the
source's `seen`/`out` loop. -/
def dedupAux (seen : List Str) : List Str → List Str
  | [] => []
  | k :: ks => if seen.contains k then dedupAux seen ks else k :: dedupAux (k :: seen) ks

/-- Deduplicate keeping first occurrences. -/
def dedupKeepFirst (l : List Str) : List Str := dedupAux [] l

/-- Model of `extract_keywords`. -/
def extract_keywords (text : Str) (tech : List (Str × List Str)) : List Str :=
  let lower := ' ' :: text.map Char.toLower ++ [' ']
  let found :=
    (tech.filterMap fun p =>
      if p.2.any (fun v => strContains lower v) then some p.1 else none) ++
    (if mentorSearch text then [strL "Mentorship"] else []) ++
    (if leadSearch text then [strL "Leadership"] else []) ++
    (if backendSearch text then [strL "Backend"] else []) ++
    (if realtimeSearch text then [strL "Real-time"] else [])
  dedupKeepFirst found

/-- Model of `summarize_entity_block`. -/
def summarize_entity_block (sec entity content : Str)
    (tech : List (Str × List Str)) : Str :=
  let kws := (extract_keywords content tech).take 5
  let base :=
    if entity != strL "General" then strL "Tae's work related to " ++ entity
    else strL "Tae's " ++ sec.map Char.toLower ++ strL " details"
  if !kws.isEmpty then
    base ++ strL " focused on " ++ List.intercalate (strL ", ") (kws.take 4) ++ strL "."
  else base ++ strL "."

/-- Chunk metadata (`source`, `section`, `entity`, `keywords`,
`summary_context`). -/
structure ChunkMeta where
  source : Str
  sectionName : Str
  entity : Str
  keywords : List Str
  summary_context : Str
  deriving DecidableEq, Repr

/-- An output chunk `{"id": ..., "text": ..., "metadata": {...}}`. -/
structure ChunkRec where
  id : Str
  text : Str
  metadata : ChunkMeta
  deriving DecidableEq, Repr

/-- Model of the id format `f"chunk_{idx:03d}"`. -/
def chunkId (idx : Nat) : Str :=
  let ds := Nat.toDigits 10 idx
  strL "chunk_" ++ List.replicate (3 - ds.length) '0' ++ ds

/-- Model of `create_contextual_chunks` (with `source`, `chunk_size` and
`overlap_ratio` explicit; the defaults are `"KimTae-SWE-Resume.pdf"`, 500 and
1/10). -/
def create_contextual_chunks (pdf_text : Str) (source : Str) (chunk_size : Nat)
    (overlap_ratio : ℚ) : List ChunkRec :=
  let lines := to_lines pdf_text
  let sections := split_by_sections lines
  let overlap := max 1 (Int.toNat ⌊(chunk_size : ℚ) * overlap_ratio⌋)
  (sections.foldl
    (fun (acc : List ChunkRec × Nat) sp =>
      (group_by_entity sp.1 sp.2).foldl
        (fun acc2 block =>
          let summary := summarize_entity_block sp.1 block.entity block.content techKeywords
          (sliding_window_chunks block.content chunk_size overlap).foldl
            (fun acc3 sc =>
              let ctext :=
                strL "Section: " ++ sp.1 ++ strL " | Entity: " ++ block.entity ++
                  strL " - " ++ sc
              (acc3.1 ++
                [⟨chunkId acc3.2, ctext,
                  ⟨source, sp.1, block.entity, extract_keywords ctext techKeywords,
                   summary⟩⟩],
               acc3.2 + 1))
            acc2)
        acc)
    ([], 0)).1

/-- The unicode dash class `[‐-―−–—]`. -/
def isUnicodeDash (c : Char) : Bool :=
  (0x2010 ≤ c.toNat && c.toNat ≤ 0x2015) || c.toNat = 0x2212

/-- Fuel-bounded scanner of `re.sub(r"\s+", " ", text)`. -/
def collapseWSF : Nat → Str → Str
  | 0, cs => cs
  | fuel + 1, cs =>
    match cs with
    | [] => []
    | c :: cs' =>
      if isPyWS c then ' ' :: collapseWSF fuel (cs'.dropWhile isPyWS)
      else c :: collapseWSF fuel cs'

/-- Model of `re.sub(r"\s+", " ", text)`: collapse each whitespace run to a
single space. -/
def collapseWS (cs : Str) : Str := collapseWSF cs.length cs

theorem tryLitCI_some {w suf rest : Str} (h : tryLitCI w suf = some rest) :
    rest = suf.drop w.length ∧ w.length ≤ suf.length := by
  unfold tryLitCI at h
  split at h
  · rename_i hc
    have h' : suf.drop w.length = rest := by simpa using h
    have hl := congrArg List.length hc
    simp only [List.length_map, List.length_take] at hl
    exact ⟨h'.symm, by omega⟩
  · exact absurd h (by simp)

/-- Attempted match of `\breal\s+time\b` (case-insensitive) at the current
position; `prev` is the character just before the position. -/
def tryRealTime (prev : Option Char) (l : Str) : Option Str :=
  if optWord prev then none
  else
    match tryLitCI (strL "real") l with
    | some r1 =>
      if (r1.takeWhile isPyWS).isEmpty then none
      else
        match tryLitCI (strL "time") (r1.dropWhile isPyWS) with
        | some r2 => if optWord r2.head? then none else some r2
        | none => none
    | none => none

theorem tryRealTime_length {prev : Option Char} {l rest : Str}
    (h : tryRealTime prev l = some rest) : rest.length < l.length := by
  unfold tryRealTime at h
  split at h
  · exact absurd h (by simp)
  rcases h1 : tryLitCI (strL "real") l with _ | r1 <;> rw [h1] at h <;> dsimp only at h
  · exact absurd h (by simp)
  obtain ⟨hr1, hw1⟩ := tryLitCI_some h1
  split at h
  · exact absurd h (by simp)
  rcases h2 : tryLitCI (strL "time") (r1.dropWhile isPyWS) with _ | r2 <;>
    rw [h2] at h <;> dsimp only at h
  · exact absurd h (by simp)
  obtain ⟨hr2, hw2⟩ := tryLitCI_some h2
  split at h
  · exact absurd h (by simp)
  have hrest : r2 = rest := by simpa using h
  have hd : (r1.dropWhile isPyWS).length ≤ r1.length := dropWhile_length_le _ _
  have e1 : r1.length = l.length - (strL "real").length := by
    rw [hr1, List.length_drop]
  have e2 : r2.length = (r1.dropWhile isPyWS).length - (strL "time").length := by
    rw [hr2, List.length_drop]
  have e3 : (strL "real").length = 4 := rfl
  have e4 : (strL "time").length = 4 := rfl
  have e5 : rest.length = r2.length := by rw [← hrest]
  omega

/-- Fuel-bounded scanner of `re.sub(r"\breal\s+time\b", "real-time", text,
re.I)`: non-overlapping left-to-right replacement, resuming after each
match. -/
def subRealTimeF : Nat → Option Char → Str → Str
  | 0, _, l => l
  | fuel + 1, prev, l =>
    match tryRealTime prev l with
    | some rest => strL "real-time" ++ subRealTimeF fuel (some 'e') rest
    | none =>
      match l with
      | [] => []
      | c :: cs => c :: subRealTimeF fuel (some c) cs

/-- Scanner of the `real time` folding, from the start of the string. -/
def subRealTimeAux (prev : Option Char) (l : Str) : Str :=
  subRealTimeF l.length prev l

/-- Model of `normalize_text_for_phrase_matching`: unify unicode dashes to
`-`, collapse whitespace, fold `real time` to `real-time`, lowercase. -/
def normalize_text_for_phrase_matching (text : Str) : Str :=
  (subRealTimeAux none
    (collapseWS (text.map fun c => if isUnicodeDash c then '-' else c))).map Char.toLower

/-- Token character class `[A-Za-z0-9.+#]` of `TOKEN_RE`. -/
def isTokChar (c : Char) : Bool := c.isAlphanum || c = '.' || c = '+' || c = '#'

/-- Fuel-bounded scanner of `TOKEN_RE.findall`. -/
def tokFindallF : Nat → Str → List Str
  | 0, _ => []
  | fuel + 1, cs =>
    match cs with
    | [] => []
    | c :: cs' =>
      if isTokChar c then
        (c :: cs'.takeWhile isTokChar) :: tokFindallF fuel (cs'.dropWhile isTokChar)
      else tokFindallF fuel cs'

/-- Model of `TOKEN_RE.findall`: maximal runs of token characters. -/
def tokFindall (cs : Str) : List Str := tokFindallF cs.length cs

/-- Model of `tokenize`: lowercased token runs of length at least 2. -/
def tokenize (text : Str) : List Str :=
  ((tokFindall text).map fun t => t.map Char.toLower).filter fun t => decide (2 ≤ t.length)

/-- A chunk as seen by the retriever (`id`, `text`, and the metadata fields
the scorer reads). -/
structure RChunk where
  id : Str
  text : Str
  entity : Str
  sectionName : Str
  keywords : List Str
  deriving DecidableEq, Repr

/-- The `RetrievedChunk` record of the source. -/
structure RetrievedChunk where
  chunk : RChunk
  score : ℚ
  reasons : List Str
  deriving DecidableEq, Repr

/-- Decimal rendering of a natural number, for reason strings. -/
def natStr (n : Nat) : Str := Nat.toDigits 10 n

/-- Cardinality of `set(a) ∩ set(b)` for token lists. -/
def distinctInterCount (a b : List Str) : Nat :=
  ((dedupKeepFirst a).filter fun t => b.contains t).length

/-- The fixed tech-term list of the phrase boost in `retrieve`. -/
def techTerms : List Str :=
  [strL "fastapi", strL "socket.io", strL "socketio", strL "openai", strL "rag",
   strL "llm", strL "websocket", strL "backend", strL "ai", strL "real-time"]

/-- The phrase/tech-term loop of `retrieve`: `+2.0` and a reason on the first
term contained in both normalized texts, then `break`. -/
def phraseLoop : List Str → Str → Str → ℚ × List Str
  | [], _, _ => (0, [])
  | t :: ts, nq, nt =>
    if strContains nq t && strContains nt t then
      (2, [strL "phrase_match(" ++ t ++ strL ")"])
    else phraseLoop ts nq nt

/-- Per-candidate scoring of `retrieve`: token overlap, keyword boost,
phrase boost, entity anchor, section boosts; returns the score and the
reason list. -/
def scoreChunk (query : Str) (ch : RChunk) : ℚ × List Str :=
  let qTokens := tokenize query
  let textTokens := tokenize ch.text
  let oc := distinctInterCount qTokens textTokens
  let reasons1 :=
    if oc ≠ 0 then [strL "token_overlap(" ++ natStr oc ++ strL ")"] else []
  let kwTokens := ch.keywords.foldl (fun acc kw => acc ++ tokenize kw) []
  let kc := distinctInterCount qTokens kwTokens
  let reasons2 :=
    reasons1 ++
      (if kc ≠ 0 then [strL "keyword_overlap(" ++ natStr kc ++ strL ")"] else [])
  let nq := normalize_text_for_phrase_matching query
  let nt := normalize_text_for_phrase_matching ch.text
  let pr := phraseLoop techTerms nq nt
  let entity := ch.entity.map Char.toLower
  let er : ℚ × List Str :=
    if !entity.isEmpty then
      if (dedupKeepFirst qTokens).any (fun t => (tokenize entity).contains t) then
        ((3 : ℚ) / 2, [strL "entity_anchor"])
      else (0, [])
    else (0, [])
  let ql := query.map Char.toLower
  let sec := ch.sectionName.map Char.toLower
  let s1 : ℚ × List Str :=
    if strContains ql (strL "experience") && strContains sec (strL "experience") then
      ((1 : ℚ) / 2, [strL "section_match(experience)"])
    else (0, [])
  let s2 : ℚ × List Str :=
    if (strContains ql (strL "project") || strContains ql (strL "projects")) &&
        strContains sec (strL "project") then
      ((1 : ℚ) / 2, [strL "section_match(projects)"])
    else (0, [])
  ((oc : ℚ) + (5 : ℚ) / 2 * (kc : ℚ) + pr.1 + er.1 + s1.1 + s2.1,
   reasons2 ++ pr.2 ++ er.2 ++ s1.2 ++ s2.2)

/-- Posting-list lookup `inv.get(tok, [])`. -/
def invGet (inv : List (Str × List Str)) (tok : Str) : List Str :=
  ((inv.find? fun p => p.1 == tok).map (·.2)).getD []

/-- Chunk lookup in `chunk_by_id`. -/
def cbidGet (cbid : List (Str × RChunk)) (cid : Str) : Option RChunk :=
  (cbid.find? fun p => p.1 == cid).map (·.2)

/-- Inner candidate-generation loop over one posting list; the state is the
candidate list and the seen set, and collection stops at `max_candidates`. -/
def candGenInner (maxc : Nat) (st : List Str × List Str) (postings : List Str) :
    List Str × List Str :=
  postings.foldl
    (fun st2 cid =>
      if maxc ≤ st2.1.length then st2
      else if st2.2.contains cid then st2
      else (st2.1 ++ [cid], cid :: st2.2))
    st

/-- Candidate generation of `retrieve`: union the posting lists of the query
tokens in order, deduplicated, capped at `max_candidates`. -/
def candGen (inv : List (Str × List Str)) (qTokens : List Str) (maxc : Nat) :
    List Str :=
  (qTokens.foldl
    (fun st tok =>
      if maxc ≤ st.1.length then st else candGenInner maxc st (invGet inv tok))
    ([], [])).1

/-- Loop state of `diversify_results`: admitted results, seen chunk ids, and
per-entity counts. -/
structure DivState where
  out : List RetrievedChunk
  seen : List Str
  counts : List (Str × Nat)

/-- Per-entity count lookup (`per_entity_count.get(entity, 0)`). -/
def cntGet (counts : List (Str × Nat)) (e : Str) : Nat :=
  ((counts.find? fun p => p.1 == e).map (·.2)).getD 0

/-- Per-entity count update. -/
def cntSet (counts : List (Str × Nat)) (e : Str) (v : Nat) : List (Str × Nat) :=
  if counts.any (fun p => p.1 == e) then
    counts.map fun p => if p.1 == e then (p.1, v) else p
  else counts ++ [(e, v)]

/-- First pass of `diversify_results`: admit in score order, skipping seen
ids and entities at their cap, until `top_k`. -/
def fpStep (top_k mpe : Nat) (st : DivState) (r : RetrievedChunk) : DivState :=
  if top_k ≤ st.out.length then st
  else if st.seen.contains r.chunk.id then st
  else
    let e := r.chunk.entity
    let c := cntGet st.counts e
    if mpe ≤ c then st
    else ⟨st.out ++ [r], r.chunk.id :: st.seen, cntSet st.counts e (c + 1)⟩

/-- Backfill insertion of `diversify_results`: place `r` before the first
admitted result it strictly outscores, else at the end. -/
def insertScored (out : List RetrievedChunk) (r : RetrievedChunk) :
    List RetrievedChunk :=
  match out with
  | [] => [r]
  | x :: xs => if x.score < r.score then r :: x :: xs else x :: insertScored xs r

/-- Backfill pass of `diversify_results`: insert not-yet-admitted candidates
in score position until `top_k`, ignoring the entity cap. -/
def bfStep (top_k : Nat) (st : DivState) (r : RetrievedChunk) : DivState :=
  if top_k ≤ st.out.length then st
  else if st.seen.contains r.chunk.id then st
  else
    let e := r.chunk.entity
    ⟨insertScored st.out r, r.chunk.id :: st.seen,
     cntSet st.counts e (cntGet st.counts e + 1)⟩

/-- Model of `diversify_results`. -/
def diversify_results (results : List RetrievedChunk) (top_k mpe : Nat) :
    List RetrievedChunk :=
  if results.isEmpty then []
  else
    let st1 := results.foldl (fpStep top_k mpe) ⟨[], [], []⟩
    let st2 := if st1.out.length < top_k then results.foldl (bfStep top_k) st1 else st1
    st2.out

/-- Stable insertion for the descending sort: an element is placed before
the first earlier element it ties or beats, keeping encounter order for
ties. -/
def insSort (r : RetrievedChunk) : List RetrievedChunk → List RetrievedChunk
  | [] => [r]
  | x :: xs => if x.score ≤ r.score then r :: x :: xs else x :: insSort r xs

/-- Stable sort by score, highest first (`scored.sort(key=..., reverse=True)`). -/
def sortByScore (l : List RetrievedChunk) : List RetrievedChunk :=
  l.foldr insSort []

/-- Candidate ids of `retrieve`: inverted-index candidates, or, when none
matched, the whole corpus (`chunk_by_id.keys()`). -/
def candidatesWithFallback (query : Str) (inv : List (Str × List Str))
    (cbid : List (Str × RChunk)) (maxc : Nat) : List Str :=
  let cands0 := candGen inv (tokenize query) maxc
  if cands0.isEmpty then cbid.map (·.1) else cands0

/-- The scoring stage of `retrieve`: look each candidate id up, skip missing
chunks and chunks without text, and keep those with positive score. -/
def scoredResults (query : Str) (cbid : List (Str × RChunk)) (cands : List Str) :
    List RetrievedChunk :=
  cands.filterMap fun cid =>
    match cbidGet cbid cid with
    | none => none
    | some ch =>
      if ch.text.isEmpty then none
      else
        let sr := scoreChunk query ch
        if 0 < sr.1 then some ⟨ch, sr.1, sr.2⟩ else none

/-- Model of `retrieve` (with `apply_diversity` explicit; its default is
`True`, `top_k` defaults to 6 and `max_candidates` to 80). -/
def retrieveM (query : Str) (inv : List (Str × List Str))
    (cbid : List (Str × RChunk)) (top_k maxc : Nat) (apply_diversity : Bool) :
    List RetrievedChunk :=
  let scored := scoredResults query cbid (candidatesWithFallback query inv cbid maxc)
  let sorted := sortByScore scored
  if apply_diversity then diversify_results sorted top_k 2 else sorted.take top_k

theorem trimmed_eq_nil_iff (l : Str) : trimmed l = [] ↔ ∀ x ∈ l, isPyWS x = true := by
  unfold trimmed
  rw [List.reverse_eq_nil_iff, List.dropWhile_eq_nil_iff]
  constructor
  · intro h x hx
    have hx2 : x ∈ l.takeWhile isPyWS ++ l.dropWhile isPyWS := by
      rw [List.takeWhile_append_dropWhile]; exact hx
    rcases List.mem_append.mp hx2 with h1 | h1
    · exact List.mem_takeWhile_imp h1
    · exact h x (List.mem_reverse.mpr h1)
  · intro h x hx
    exact h x ((List.dropWhile_sublist isPyWS).mem (List.mem_reverse.mp hx))

theorem trimmed_ne_nil {l : Str} {c : Char} (hc : c ∈ l) (hw : isPyWS c = false) :
    ¬ trimmed l = [] := by
  intro h
  have := (trimmed_eq_nil_iff l).mp h c hc
  rw [hw] at this
  exact Bool.false_ne_true this

theorem mem_slice {text : Str} {i j idx : Nat} (h1 : i ≤ idx) (h2 : idx < j)
    (h3 : j ≤ text.length) (h : idx < text.length) :
    text.get ⟨idx, h⟩ ∈ (text.drop i).take (j - i) := by
  have hlt : idx - i < j - i := by omega
  have hd : idx - i < (text.drop i).length := by
    rw [List.length_drop]; omega
  have hb2 : idx - i < ((text.drop i).take (j - i)).length := by
    rw [List.length_take]
    exact lt_min hlt hd
  have he : ((text.drop i).take (j - i))[idx - i] = text.get ⟨idx, h⟩ := by
    rw [List.getElem_take, List.getElem_drop]
    congr 1
    omega
  exact he ▸ List.getElem_mem _

theorem swcExtend_le {text : Str} {j : Nat} (h : j ≤ text.length) :
    swcExtend text j ≤ text.length := by
  unfold swcExtend
  have h1 : ((text.drop j).takeWhile Char.isAlphanum).length ≤ (text.drop j).length :=
    (List.takeWhile_sublist _).length_le
  rw [List.length_drop] at h1
  omega

theorem swcJ_le (text : Str) (size i : Nat) : swcJ text size i ≤ text.length := by
  simp only [swcJ]
  split
  · exact swcExtend_le (min_le_right _ _)
  · exact min_le_right _ _

theorem min_le_swcJ (text : Str) (size i : Nat) :
    min (i + size) text.length ≤ swcJ text size i := by
  simp only [swcJ]
  split
  · exact Nat.le_add_right _ _
  · exact le_rfl

/-- Word-boundary test at position `j` of the text: false exactly when an
alphanumeric character at `j - 1` is immediately followed by an alphanumeric
character at `j`. -/
def bdry (text : Str) (j : Nat) : Bool :=
  match text[j - 1]?, text[j]? with
  | some a, some b => !(a.isAlphanum && b.isAlphanum)
  | _, _ => true

theorem takeWhile_stop (p : Char → Bool) :
    ∀ l : List Char, (l.takeWhile p).length < l.length →
      (l[(l.takeWhile p).length]?.any p) = false := by
  intro l
  induction l with
  | nil => intro h; simp at h
  | cons c cs ih =>
    intro h
    by_cases hp : p c = true
    · rw [List.takeWhile_cons_of_pos hp] at h ⊢
      simp only [List.length_cons, List.getElem?_cons_succ] at h ⊢
      exact ih (by omega)
    · rw [List.takeWhile_cons_of_neg hp] at h ⊢
      simp only [List.length_nil, List.getElem?_cons_zero, Option.any_some]
      exact Bool.not_eq_true _ ▸ hp

theorem bdry_of_right {text : Str} {j : Nat} {b : Char} (hb : text[j]? = some b)
    (hba : b.isAlphanum = false) : bdry text j = true := by
  unfold bdry
  rw [hb]
  cases text[j - 1]? with
  | none => rfl
  | some a => simp [hba]

theorem bdry_of_left {text : Str} {j : Nat} {a : Char} (ha : text[j - 1]? = some a)
    (haa : a.isAlphanum = false) : bdry text j = true := by
  unfold bdry
  rw [ha]
  cases text[j]? with
  | none => rfl
  | some b => simp [haa]

theorem chunk0_getLast_alnum {text : Str} {i j0 : Nat} (hij : i < j0)
    (hn : j0 ≤ text.length) (hlt : j0 - 1 < text.length) :
    (match ((text.drop i).take (j0 - i)).getLast? with
     | some c => c.isAlphanum
     | none => false) = (text[j0 - 1]).isAlphanum := by
  have hlen : ((text.drop i).take (j0 - i)).length = j0 - i := by
    rw [List.length_take, List.length_drop]; omega
  have hne : ((text.drop i).take (j0 - i)) ≠ [] := by
    intro h; rw [h] at hlen; simp at hlen; omega
  rw [List.getLast?_eq_getLast _ hne]
  dsimp only
  congr 1
  rw [List.getLast_eq_getElem]
  have h1 : ((text.drop i).take (j0 - i)).length - 1 < (text.drop i).length := by
    rw [hlen, List.length_drop]; omega
  rw [List.getElem_take, List.getElem_drop]
  congr 1
  rw [hlen, List.length_drop] at *
  omega

theorem swcJ_bdry {text : Str} {size i : Nat}
    (hne : ¬ trimmed ((text.drop i).take (swcJ text size i - i)) = [])
    (hj : swcJ text size i < text.length) : bdry text (swcJ text size i) = true := by
  by_cases hc :
      (decide (min (i + size) text.length < text.length) &&
        !((text.drop i).take (min (i + size) text.length - i)).isEmpty &&
        (match ((text.drop i).take (min (i + size) text.length - i)).getLast? with
         | some c => c.isAlphanum
         | none => false)) = true
  · have hsw : swcJ text size i = swcExtend text (min (i + size) text.length) := by
      simp only [swcJ]
      rw [if_pos hc]
    rw [hsw] at hj ⊢
    rw [swcExtend] at hj ⊢
    have hj0n : min (i + size) text.length ≤ text.length := min_le_right _ _
    have htw : ((text.drop (min (i + size) text.length)).takeWhile
        Char.isAlphanum).length < (text.drop (min (i + size) text.length)).length := by
      rw [List.length_drop]
      omega
    have hidx : min (i + size) text.length +
        ((text.drop (min (i + size) text.length)).takeWhile Char.isAlphanum).length <
        text.length := hj
    have hb : text[min (i + size) text.length +
        ((text.drop (min (i + size) text.length)).takeWhile Char.isAlphanum).length]? =
        some ((text.drop (min (i + size) text.length))[((text.drop
          (min (i + size) text.length)).takeWhile Char.isAlphanum).length]) := by
      rw [List.getElem_drop]
      exact (List.getElem?_eq_some_getElem_iff _ _ hidx).mpr trivial
    refine bdry_of_right hb ?_
    have hstop := takeWhile_stop Char.isAlphanum (text.drop (min (i + size) text.length)) htw
    have he : (text.drop (min (i + size) text.length))[((text.drop
        (min (i + size) text.length)).takeWhile Char.isAlphanum).length]? =
        some ((text.drop (min (i + size) text.length))[((text.drop
          (min (i + size) text.length)).takeWhile Char.isAlphanum).length]) :=
      (List.getElem?_eq_some_getElem_iff _ _ htw).mpr trivial
    rw [he] at hstop
    simpa using hstop
  · have hsw : swcJ text size i = min (i + size) text.length := by
      simp only [swcJ]
      rw [if_neg hc]
    rw [hsw] at hj hne ⊢
    have hnn : ((text.drop i).take (min (i + size) text.length - i)) ≠ [] := by
      intro h
      rw [h] at hne
      exact hne rfl
    have hij : i < min (i + size) text.length := by
      by_contra hle
      apply hnn
      have : min (i + size) text.length - i = 0 := by omega
      rw [this]
      simp
    have hcl : (match ((text.drop i).take (min (i + size) text.length - i)).getLast? with
        | some c => c.isAlphanum
        | none => false) = false := by
      cases hmatch : (match ((text.drop i).take (min (i + size) text.length - i)).getLast? with
          | some c => c.isAlphanum
          | none => false) with
      | false => rfl
      | true =>
        exfalso
        apply hc
        have hA : decide (min (i + size) text.length < text.length) = true := by
          simpa using hj
        have hB : (!((text.drop i).take (min (i + size) text.length - i)).isEmpty) = true := by
          simp [List.isEmpty_iff, hnn]
        rw [hA, hB, hmatch]
        rfl
    rw [chunk0_getLast_alnum hij (min_le_right _ _) (by omega)] at hcl
    refine bdry_of_left ?_ hcl
    exact (List.getElem?_eq_some_getElem_iff _ _ (by omega)).mpr trivial

theorem swcLoop_spans_wf (text : Str) (size overlap : Nat) :
    ∀ fuel i,
      ∀ sp ∈ swcLoopF text size overlap fuel i,
        sp.2.2 ≤ text.length ∧ (sp.2.2 < text.length → bdry text sp.2.2 = true) := by
  intro fuel
  induction fuel with
  | zero =>
    intro i sp hsp
    simp [swcLoopF] at hsp
  | succ fuel ih =>
    intro i sp hsp
    by_cases hi : i < text.length
    · rw [swcLoopF, if_pos hi] at hsp
      dsimp only at hsp
      have hemit : sp ∈ (if (trimmed ((text.drop i).take (swcJ text size i - i))).isEmpty
            then ([] : List (Str × Nat × Nat))
            else [(trimmed ((text.drop i).take (swcJ text size i - i)), i,
                   swcJ text size i)]) →
          sp.2.2 ≤ text.length ∧ (sp.2.2 < text.length → bdry text sp.2.2 = true) := by
        intro hm
        by_cases hch : (trimmed ((text.drop i).take (swcJ text size i - i))).isEmpty
        · rw [if_pos hch] at hm; simp at hm
        · rw [if_neg hch] at hm
          simp only [List.mem_singleton] at hm
          subst hm
          refine ⟨swcJ_le text size i, fun hlt => swcJ_bdry ?_ hlt⟩
          rw [List.isEmpty_iff] at hch
          exact hch
      by_cases hbreak : text.length ≤ swcJ text size i
      · rw [if_pos hbreak] at hsp
        exact hemit hsp
      · rw [if_neg hbreak] at hsp
        rcases List.mem_append.mp hsp with h1 | h1
        · exact hemit h1
        · exact ih (i + max 1 (size - overlap)) sp h1
    · rw [swcLoopF, if_neg hi] at hsp
      simp at hsp

theorem swcLoop_covers (text : Str) (size overlap : Nat) (hsize : 1 ≤ size) :
    ∀ fuel i idx, text.length - i ≤ fuel → i ≤ idx → ∀ h : idx < text.length,
      isPyWS (text[idx]) = false →
      ∃ sp ∈ swcLoopF text size overlap fuel i, sp.2.1 ≤ idx ∧ idx < sp.2.2 := by
  intro fuel
  induction fuel with
  | zero => intro i idx hf hle h hw; omega
  | succ fuel ih =>
    intro i idx hf hle h hw
    have hi : i < text.length := by omega
    rw [swcLoopF, if_pos hi]
    dsimp only
    by_cases hcov : idx < swcJ text size i
    · have hmem : text[idx] ∈ (text.drop i).take (swcJ text size i - i) :=
        mem_slice hle hcov (swcJ_le text size i) h
      have hch : ¬ (trimmed ((text.drop i).take (swcJ text size i - i))).isEmpty = true := by
        rw [List.isEmpty_iff]
        exact trimmed_ne_nil hmem hw
      by_cases hbreak : text.length ≤ swcJ text size i
      · rw [if_pos hbreak, if_neg hch]
        exact ⟨(trimmed ((text.drop i).take (swcJ text size i - i)), i, swcJ text size i),
          by simp, hle, hcov⟩
      · rw [if_neg hbreak, if_neg hch]
        exact ⟨(trimmed ((text.drop i).take (swcJ text size i - i)), i, swcJ text size i),
          by simp, hle, hcov⟩
    · push_neg at hcov
      have hjn : swcJ text size i < text.length := by omega
      have hbreak : ¬ text.length ≤ swcJ text size i := by omega
      rw [if_neg hbreak]
      have hstep : i + max 1 (size - overlap) ≤ idx := by
        have h1 : min (i + size) text.length ≤ swcJ text size i := min_le_swcJ text size i
        rcases le_or_lt (i + size) text.length with hc | hc
        · have : min (i + size) text.length = i + size := by omega
          have h2 : max 1 (size - overlap) ≤ size := by omega
          omega
        · have : min (i + size) text.length = text.length := by omega
          omega
      obtain ⟨sp, hsp, hc1, hc2⟩ := ih (i + max 1 (size - overlap)) idx
        (by have := le_max_left 1 (size - overlap); omega) hstep h hw
      exact ⟨sp, List.mem_append.mpr (Or.inr hsp), hc1, hc2⟩

theorem swcLoop_j_lt (text : Str) (size overlap : Nat) :
    ∀ fuel i l₁ sp l₂,
      swcLoopF text size overlap fuel i = l₁ ++ sp :: l₂ → l₂ ≠ [] →
      sp.2.2 < text.length := by
  intro fuel
  induction fuel with
  | zero =>
    intro i l₁ sp l₂ heq _
    rw [swcLoopF] at heq
    exact absurd heq.symm (List.append_ne_nil_of_right_ne_nil _ (by simp))
  | succ fuel ih =>
    intro i l₁ sp l₂ heq hl₂
    by_cases hi : i < text.length
    · rw [swcLoopF, if_pos hi] at heq
      dsimp only at heq
      by_cases hbreak : text.length ≤ swcJ text size i
      · rw [if_pos hbreak] at heq
        by_cases hch : (trimmed ((text.drop i).take (swcJ text size i - i))).isEmpty
        · rw [if_pos hch] at heq
          exact absurd heq.symm (List.append_ne_nil_of_right_ne_nil _ (by simp))
        · rw [if_neg hch] at heq
          have := congrArg List.length heq
          simp [List.length_append] at this
          have : l₂ = [] := List.eq_nil_of_length_eq_zero (by omega)
          exact absurd this hl₂
      · rw [if_neg hbreak] at heq
        by_cases hch : (trimmed ((text.drop i).take (swcJ text size i - i))).isEmpty
        · rw [if_pos hch, List.nil_append] at heq
          exact ih (i + max 1 (size - overlap)) l₁ sp l₂ heq hl₂
        · rw [if_neg hch, List.singleton_append] at heq
          cases l₁ with
          | nil =>
            simp only [List.nil_append, List.cons.injEq] at heq
            rw [← heq.1]
            simp only
            omega
          | cons y l₁' =>
            simp only [List.cons_append, List.cons.injEq] at heq
            exact ih (i + max 1 (size - overlap)) l₁' sp l₂ heq.2 hl₂
    · rw [swcLoopF, if_neg hi] at heq
      exact absurd heq.symm (List.append_ne_nil_of_right_ne_nil _ (by simp))

/-- C2 (amended): for `size ≥ 1`, every index holding a non-whitespace
character is covered by the span of some produced chunk.  (Indices of
whitespace characters whose every window is all-whitespace are not covered,
because all-whitespace windows are stripped and dropped.) -/
theorem c2_amended_theorem (text : Str) (size overlap : Nat) (hsize : 1 ≤ size)
    (idx : Nat) (h : idx < text.length) (hw : isPyWS (text[idx]) = false) :
    ∃ sp ∈ sliding_window_spans text size overlap, sp.2.1 ≤ idx ∧ idx < sp.2.2 := by
  unfold sliding_window_spans
  have hne : ¬ text.isEmpty = true := by
    rw [List.isEmpty_iff]
    intro hh
    subst hh
    simp at h
  rw [if_neg hne]
  exact swcLoop_covers text size overlap hsize text.length 0 idx (by omega) (by omega) h hw

/-- C2 witness: the theorem applied at `"ab"`, `size = 1`, `overlap = 0`,
index 0. -/
theorem c2_witness :
    ∃ sp ∈ sliding_window_spans (strL "ab") 1 0, sp.2.1 ≤ 0 ∧ 0 < sp.2.2 :=
  c2_amended_theorem (strL "ab") 1 0 (by decide) 0 (by decide) (by decide)

/-- C2 counterexample: on `"a "` with `size = 1`, `overlap = 0`, character
index 1 (a space) lies in no produced chunk's span, so coverage of every
index in `[0, N)` fails as stated. -/
theorem c2_counterexample :
    ¬ (∀ idx, idx < (strL "a ").length →
        ∃ sp ∈ sliding_window_spans (strL "a ") 1 0, sp.2.1 ≤ idx ∧ idx < sp.2.2) := by
  decide

/-- C8 (confirmed): every produced chunk whose span ends before the end of
the text ends at a word boundary (an alphanumeric final character is not
followed by an alphanumeric character), and every produced chunk other than
the last has its span end before the end of the text. -/
theorem c8_theorem (text : Str) (size overlap : Nat) :
    (∀ sp ∈ sliding_window_spans text size overlap,
       sp.2.2 < text.length → bdry text sp.2.2 = true) ∧
    (∀ l₁ sp l₂, sliding_window_spans text size overlap = l₁ ++ sp :: l₂ →
       l₂ ≠ [] → sp.2.2 < text.length) := by
  constructor
  · intro sp hsp hlt
    unfold sliding_window_spans at hsp
    by_cases he : text.isEmpty
    · rw [if_pos he] at hsp
      simp at hsp
    · rw [if_neg he] at hsp
      exact (swcLoop_spans_wf text size overlap text.length 0 sp hsp).2 hlt
  · intro l₁ sp l₂ heq hl₂
    unfold sliding_window_spans at heq
    by_cases he : text.isEmpty
    · rw [if_pos he] at heq
      exact absurd heq.symm (List.append_ne_nil_of_right_ne_nil _ (by simp))
    · rw [if_neg he] at heq
      exact swcLoop_j_lt text size overlap text.length 0 l₁ sp l₂ heq hl₂

/-- C8 witness: on `"ab cd"` with `size = 3`, `overlap = 1`, the first
produced span `("ab", 0, 3)` ends at a word boundary. -/
theorem c8_witness : bdry (strL "ab cd") 3 = true :=
  (c8_theorem (strL "ab cd") 3 1).1 (strL "ab", 0, 3) (by decide) (by decide)

/-- Non-increasing score order. -/
def scoresSorted (l : List RetrievedChunk) : Prop :=
  List.Pairwise (fun a b => b.score ≤ a.score) l

theorem insertScored_perm (out : List RetrievedChunk) (r : RetrievedChunk) :
    List.Perm (insertScored out r) (r :: out) := by
  induction out with
  | nil => rfl
  | cons x xs ih =>
    rw [insertScored]
    split
    · rfl
    · exact (List.Perm.cons x ih).trans (List.Perm.swap r x xs)

theorem insertScored_sorted {out : List RetrievedChunk} (r : RetrievedChunk)
    (h : scoresSorted out) : scoresSorted (insertScored out r) := by
  induction out with
  | nil => exact List.pairwise_singleton _ _
  | cons x xs ih =>
    rw [insertScored]
    rcases List.pairwise_cons.mp h with ⟨hx, hxs⟩
    split
    · rename_i hlt
      refine List.pairwise_cons.mpr ⟨?_, h⟩
      intro z hz
      rcases List.mem_cons.mp hz with hz | hz
      · subst hz; exact le_of_lt hlt
      · exact le_trans (hx z hz) (le_of_lt hlt)
    · rename_i hnlt
      refine List.pairwise_cons.mpr ⟨?_, ih hxs⟩
      intro z hz
      rcases List.mem_cons.mp ((insertScored_perm xs r).mem_iff.mp hz) with hz | hz
      · subst hz; exact le_of_not_lt hnlt
      · exact hx z hz

theorem fp_fold_sorted (top_k mpe : Nat) :
    ∀ (results : List RetrievedChunk) (st : DivState),
      scoresSorted st.out →
      (∀ x ∈ st.out, ∀ y ∈ results, y.score ≤ x.score) →
      List.Pairwise (fun a b => b.score ≤ a.score) results →
      scoresSorted ((results.foldl (fpStep top_k mpe) st).out) := by
  intro results
  induction results with
  | nil => intro st hs _ _; exact hs
  | cons r rs ih =>
    intro st hs hge hp
    rcases List.pairwise_cons.mp hp with ⟨hr, hrs⟩
    rw [List.foldl_cons]
    have hcases : fpStep top_k mpe st r = st ∨
        ((fpStep top_k mpe st r).out = st.out ++ [r] ∧
         (fpStep top_k mpe st r).seen = r.chunk.id :: st.seen) := by
      unfold fpStep
      split
      · exact Or.inl rfl
      · split
        · exact Or.inl rfl
        · dsimp only
          split
          · exact Or.inl rfl
          · exact Or.inr ⟨rfl, rfl⟩
    rcases hcases with heq | ⟨hout, _⟩
    · rw [heq]
      exact ih st hs (fun x hx y hy => hge x hx y (List.mem_cons_of_mem r hy)) hrs
    · refine ih _ ?_ ?_ hrs
      · rw [hout]
        unfold scoresSorted
        rw [List.pairwise_append]
        refine ⟨hs, List.pairwise_singleton _ _, ?_⟩
        intro a ha b hb
        rw [List.mem_singleton] at hb
        rw [hb]
        exact hge a ha r (List.mem_cons_self r rs)
      · rw [hout]
        intro x hx y hy
        rcases List.mem_append.mp hx with hx | hx
        · exact hge x hx y (List.mem_cons_of_mem r hy)
        · rw [List.mem_singleton] at hx
          subst hx
          exact hr y hy

theorem bf_fold_sorted (top_k : Nat) :
    ∀ (results : List RetrievedChunk) (st : DivState),
      scoresSorted st.out →
      scoresSorted ((results.foldl (bfStep top_k) st).out) := by
  intro results
  induction results with
  | nil => intro st hs; exact hs
  | cons r rs ih =>
    intro st hs
    rw [List.foldl_cons]
    have hcases : bfStep top_k st r = st ∨
        (bfStep top_k st r).out = insertScored st.out r := by
      unfold bfStep
      split
      · exact Or.inl rfl
      · split
        · exact Or.inl rfl
        · dsimp only
          exact Or.inr rfl
    rcases hcases with heq | hout
    · rw [heq]; exact ih st hs
    · refine ih _ ?_
      rw [hout]
      exact insertScored_sorted r hs

/-- C3 (confirmed): for input already sorted by score in non-increasing
order, the output of `diversify_results` is sorted by score in non-increasing
order, whether or not the backfill pass runs. -/
theorem c3_theorem (results : List RetrievedChunk) (top_k mpe : Nat)
    (hs : List.Pairwise (fun a b => b.score ≤ a.score) results) :
    List.Pairwise (fun a b => b.score ≤ a.score)
      (diversify_results results top_k mpe) := by
  unfold diversify_results
  by_cases he : results.isEmpty
  · rw [if_pos he]; exact List.Pairwise.nil
  · rw [if_neg he]
    dsimp only
    have h1 : scoresSorted ((results.foldl (fpStep top_k mpe) ⟨[], [], []⟩).out) :=
      fp_fold_sorted top_k mpe results ⟨[], [], []⟩ List.Pairwise.nil
        (by intro x hx; simp at hx) hs
    split
    · exact bf_fold_sorted top_k results _ h1
    · exact h1

/-- C3 witness: the theorem applied to a concrete sorted two-element input. -/
theorem c3_witness :
    List.Pairwise (fun a b => b.score ≤ a.score)
      (diversify_results
        [⟨⟨strL "a", strL "t", strL "A", strL "S", []⟩, 3, []⟩,
         ⟨⟨strL "b", strL "t", strL "B", strL "S", []⟩, 1, []⟩] 2 2) :=
  c3_theorem _ 2 2 (by decide)

/-- Chunk ids of a result list (`r.chunk.get("id", "")` per result). -/
def idsOf (l : List RetrievedChunk) : List Str := l.map fun r => r.chunk.id

/-- A diversify pass step either leaves the state unchanged, or, while the
output is below `top_k`, admits a result whose id is unseen: the new output
is a permutation of the old with the result added, and the id joins the seen
set. -/
def StepSpec (top_k : Nat) (step : DivState → RetrievedChunk → DivState) : Prop :=
  ∀ st r, step st r = st ∨
    (st.out.length < top_k ∧ ¬ r.chunk.id ∈ st.seen ∧
      List.Perm (step st r).out (r :: st.out) ∧
      (step st r).seen = r.chunk.id :: st.seen)

theorem fpStep_spec (top_k mpe : Nat) : StepSpec top_k (fpStep top_k mpe) := by
  intro st r
  unfold fpStep
  split
  · exact Or.inl rfl
  · rename_i h1
    split
    · exact Or.inl rfl
    · rename_i h2
      dsimp only
      split
      · exact Or.inl rfl
      · refine Or.inr ⟨by omega, ?_, List.perm_append_singleton _ _, rfl⟩
        intro hmem
        exact h2 (by simpa using hmem)

theorem bfStep_spec (top_k : Nat) : StepSpec top_k (bfStep top_k) := by
  intro st r
  unfold bfStep
  split
  · exact Or.inl rfl
  · rename_i h1
    split
    · exact Or.inl rfl
    · rename_i h2
      dsimp only
      refine Or.inr ⟨by omega, ?_, insertScored_perm _ _, rfl⟩
      intro hmem
      exact h2 (by simpa using hmem)

theorem bfStep_complete (top_k : Nat) (st : DivState) (r : RetrievedChunk) :
    top_k ≤ st.out.length ∨ r.chunk.id ∈ (bfStep top_k st r).seen := by
  unfold bfStep
  split
  · rename_i h; exact Or.inl h
  · split
    · rename_i h2
      right
      simpa using h2
    · right
      dsimp only
      exact List.mem_cons_self _ _

theorem step_len_mono {top_k : Nat} {step : DivState → RetrievedChunk → DivState}
    (hs : StepSpec top_k step) (st : DivState) (r : RetrievedChunk) :
    st.out.length ≤ (step st r).out.length := by
  rcases hs st r with heq | ⟨_, _, hperm, _⟩
  · rw [heq]
  · rw [hperm.length_eq]
    simp

/-- The running invariant of both diversify passes: output ids are distinct,
the seen set is exactly the set of output ids, and the output never exceeds
`top_k`. -/
def CoreInv (top_k : Nat) (st : DivState) : Prop :=
  (idsOf st.out).Nodup ∧ (∀ x, x ∈ st.seen ↔ x ∈ idsOf st.out) ∧
    st.out.length ≤ top_k

theorem fold_core_inv {top_k : Nat} {step : DivState → RetrievedChunk → DivState}
    (hs : StepSpec top_k step) :
    ∀ (rs : List RetrievedChunk) (st : DivState), CoreInv top_k st →
      CoreInv top_k (rs.foldl step st) := by
  intro rs
  induction rs with
  | nil => intro st h; exact h
  | cons r rs ih =>
    intro st h
    rw [List.foldl_cons]
    refine ih _ ?_
    rcases hs st r with heq | ⟨hlen, hmem, hperm, hseen⟩
    · rw [heq]; exact h
    · obtain ⟨h1, h2, h3⟩ := h
      have hids : List.Perm (idsOf (step st r).out) (r.chunk.id :: idsOf st.out) :=
        hperm.map _
      refine ⟨?_, ?_, ?_⟩
      · rw [hids.nodup_iff]
        exact List.nodup_cons.mpr ⟨fun hc => hmem ((h2 _).mpr hc), h1⟩
      · intro x
        rw [hseen, hids.mem_iff, List.mem_cons, List.mem_cons]
        exact or_congr Iff.rfl (h2 x)
      · have hl := hperm.length_eq
        simp only [List.length_cons] at hl
        omega

theorem fold_seen_from {top_k : Nat} {step : DivState → RetrievedChunk → DivState}
    (hs : StepSpec top_k step) :
    ∀ (rs : List RetrievedChunk) (st : DivState) (x : Str),
      x ∈ (rs.foldl step st).seen → x ∈ st.seen ∨ x ∈ idsOf rs := by
  intro rs
  induction rs with
  | nil => intro st x hx; exact Or.inl hx
  | cons r rs ih =>
    intro st x hx
    rw [List.foldl_cons] at hx
    rcases ih (step st r) x hx with h | h
    · rcases hs st r with heq | ⟨_, _, _, hseen⟩
      · rw [heq] at h; exact Or.inl h
      · rw [hseen] at h
        rcases List.mem_cons.mp h with h | h
        · right
          rw [h]
          exact List.mem_cons_self _ _
        · exact Or.inl h
    · right
      exact List.mem_cons_of_mem _ h

theorem fold_seen_mono {top_k : Nat} {step : DivState → RetrievedChunk → DivState}
    (hs : StepSpec top_k step) :
    ∀ (rs : List RetrievedChunk) (st : DivState) (x : Str),
      x ∈ st.seen → x ∈ (rs.foldl step st).seen := by
  intro rs
  induction rs with
  | nil => intro st x hx; exact hx
  | cons r rs ih =>
    intro st x hx
    rw [List.foldl_cons]
    refine ih _ x ?_
    rcases hs st r with heq | ⟨_, _, _, hseen⟩
    · rw [heq]; exact hx
    · rw [hseen]
      exact List.mem_cons_of_mem _ hx

theorem fold_len_mono {top_k : Nat} {step : DivState → RetrievedChunk → DivState}
    (hs : StepSpec top_k step) :
    ∀ (rs : List RetrievedChunk) (st : DivState),
      st.out.length ≤ (rs.foldl step st).out.length := by
  intro rs
  induction rs with
  | nil => intro st; exact le_rfl
  | cons r rs ih =>
    intro st
    rw [List.foldl_cons]
    exact le_trans (step_len_mono hs st r) (ih _)

theorem bf_fold_complete (top_k : Nat) :
    ∀ (rs : List RetrievedChunk) (st : DivState),
      (rs.foldl (bfStep top_k) st).out.length < top_k →
      ∀ r ∈ rs, r.chunk.id ∈ (rs.foldl (bfStep top_k) st).seen := by
  intro rs
  induction rs with
  | nil => intro st _ r hr; simp at hr
  | cons q qs ih =>
    intro st hlen r hr
    rw [List.foldl_cons] at hlen ⊢
    rcases List.mem_cons.mp hr with hq | hq
    · rw [hq]
      rcases bfStep_complete top_k st q with hge | hmem
      · exfalso
        have hm1 := step_len_mono (bfStep_spec top_k) st q
        have hm2 := fold_len_mono (bfStep_spec top_k) qs (bfStep top_k st q)
        omega
      · exact fold_seen_mono (bfStep_spec top_k) qs _ _ hmem
    · exact ih _ hlen r hq

theorem nodup_subset_dedup_le {l m : List Str} (hn : l.Nodup)
    (hsub : ∀ x ∈ l, x ∈ m) : l.length ≤ m.dedup.length := by
  have h1 : l.toFinset.card = l.length := List.toFinset_card_of_nodup hn
  have h2 : l.toFinset ⊆ m.toFinset := fun x hx =>
    List.mem_toFinset.mpr (hsub x (List.mem_toFinset.mp hx))
  have h3 := Finset.card_le_card h2
  have h4 : m.toFinset.card = m.dedup.length := List.card_toFinset m
  omega

theorem nodup_eq_dedup_len {l m : List Str} (hn : l.Nodup)
    (h1 : ∀ x ∈ l, x ∈ m) (h2 : ∀ x ∈ m, x ∈ l) : l.length = m.dedup.length := by
  have hfe : l.toFinset = m.toFinset := by
    apply Finset.ext
    intro x
    rw [List.mem_toFinset, List.mem_toFinset]
    exact ⟨h1 x, h2 x⟩
  have hc : l.toFinset.card = l.length := List.toFinset_card_of_nodup hn
  have hm := List.card_toFinset m
  rw [hfe] at hc
  omega

/-- C4 (confirmed): the output of `diversify_results` has length exactly
`min top_k (number of distinct chunk ids in the input)` and contains no
duplicate chunk ids. -/
theorem c4_theorem (results : List RetrievedChunk) (top_k mpe : Nat) :
    (diversify_results results top_k mpe).length =
      min top_k (idsOf results).dedup.length ∧
    (idsOf (diversify_results results top_k mpe)).Nodup := by
  unfold diversify_results
  by_cases he : results.isEmpty
  · rw [if_pos he]
    have hr : results = [] := List.isEmpty_iff.mp he
    rw [hr]
    simp [idsOf]
  · rw [if_neg he]
    dsimp only
    have hinv0 : CoreInv top_k (⟨[], [], []⟩ : DivState) :=
      ⟨List.nodup_nil, by simp [idsOf], by simp⟩
    have hinv1 : CoreInv top_k (results.foldl (fpStep top_k mpe) ⟨[], [], []⟩) :=
      fold_core_inv (fpStep_spec top_k mpe) results _ hinv0
    have hseen1 : ∀ x ∈ (results.foldl (fpStep top_k mpe) ⟨[], [], []⟩).seen,
        x ∈ idsOf results := by
      intro x hx
      rcases fold_seen_from (fpStep_spec top_k mpe) results _ x hx with h | h
      · simp at h
      · exact h
    by_cases hlt : (results.foldl (fpStep top_k mpe) ⟨[], [], []⟩).out.length < top_k
    · rw [if_pos hlt]
      have hinv2 : CoreInv top_k
          (results.foldl (bfStep top_k) (results.foldl (fpStep top_k mpe) ⟨[], [], []⟩)) :=
        fold_core_inv (bfStep_spec top_k) results _ hinv1
      have hseen2 : ∀ x ∈ (results.foldl (bfStep top_k)
          (results.foldl (fpStep top_k mpe) ⟨[], [], []⟩)).seen, x ∈ idsOf results := by
        intro x hx
        rcases fold_seen_from (bfStep_spec top_k) results _ x hx with h | h
        · exact hseen1 x h
        · exact h
      obtain ⟨hnodup2, hiff2, hle2⟩ := hinv2
      refine ⟨?_, hnodup2⟩
      have hidlen : (idsOf (results.foldl (bfStep top_k)
          (results.foldl (fpStep top_k mpe) ⟨[], [], []⟩)).out).length =
          (results.foldl (bfStep top_k)
            (results.foldl (fpStep top_k mpe) ⟨[], [], []⟩)).out.length := by
        simp [idsOf]
      have hsub : ∀ x ∈ idsOf (results.foldl (bfStep top_k)
          (results.foldl (fpStep top_k mpe) ⟨[], [], []⟩)).out, x ∈ idsOf results :=
        fun x hx => hseen2 x ((hiff2 x).mpr hx)
      by_cases hlt2 : (results.foldl (bfStep top_k)
          (results.foldl (fpStep top_k mpe) ⟨[], [], []⟩)).out.length < top_k
      · have hall := bf_fold_complete top_k results
          (results.foldl (fpStep top_k mpe) ⟨[], [], []⟩) hlt2
        have hsup : ∀ y ∈ idsOf results, y ∈ idsOf (results.foldl (bfStep top_k)
            (results.foldl (fpStep top_k mpe) ⟨[], [], []⟩)).out := by
          intro y hy
          obtain ⟨r, hr, hry⟩ := List.mem_map.mp hy
          rw [← hry]
          exact (hiff2 _).mp (hall r hr)
        have heq := nodup_eq_dedup_len hnodup2 hsub hsup
        omega
      · have hle := nodup_subset_dedup_le hnodup2 hsub
        omega
    · rw [if_neg hlt]
      obtain ⟨hnodup1, hiff1, hle1⟩ := hinv1
      have hidlen : (idsOf (results.foldl (fpStep top_k mpe) ⟨[], [], []⟩).out).length =
          (results.foldl (fpStep top_k mpe) ⟨[], [], []⟩).out.length := by
        simp [idsOf]
      have hsub : ∀ x ∈ idsOf (results.foldl (fpStep top_k mpe) ⟨[], [], []⟩).out,
          x ∈ idsOf results := fun x hx => hseen1 x ((hiff1 x).mpr hx)
      have hle := nodup_subset_dedup_le hnodup1 hsub
      exact ⟨by omega, hnodup1⟩

theorem insSort_length (r : RetrievedChunk) (l : List RetrievedChunk) :
    (insSort r l).length = l.length + 1 := by
  induction l with
  | nil => rfl
  | cons x xs ih =>
    rw [insSort]
    split
    · simp
    · simp [ih]

theorem sortByScore_length (l : List RetrievedChunk) :
    (sortByScore l).length = l.length := by
  unfold sortByScore
  induction l with
  | nil => rfl
  | cons x xs ih =>
    rw [List.foldr_cons, insSort_length, ih]
    simp

theorem diversify_ne_nil (results : List RetrievedChunk) (top_k mpe : Nat)
    (hr : results ≠ []) (ht : 1 ≤ top_k) (hm : 1 ≤ mpe) :
    diversify_results results top_k mpe ≠ [] := by
  unfold diversify_results
  rw [if_neg (by simpa [List.isEmpty_iff] using hr)]
  dsimp only
  obtain ⟨r, rs, rfl⟩ := List.exists_cons_of_ne_nil hr
  have hstep : (fpStep top_k mpe ⟨[], [], []⟩ r).out = [r] := by
    unfold fpStep
    rw [if_neg (by simp; omega), if_neg (by simp)]
    dsimp only
    rw [if_neg (by simp [cntGet]; omega)]
    simp
  have h1 : 1 ≤ ((r :: rs).foldl (fpStep top_k mpe) ⟨[], [], []⟩).out.length := by
    rw [List.foldl_cons]
    have hmono := fold_len_mono (fpStep_spec top_k mpe) rs (fpStep top_k mpe ⟨[], [], []⟩ r)
    rw [hstep] at hmono
    simpa using hmono
  split
  · have h2 := fold_len_mono (bfStep_spec top_k) (r :: rs)
      ((r :: rs).foldl (fpStep top_k mpe) ⟨[], [], []⟩)
    exact List.length_pos.mp (by omega)
  · exact List.length_pos.mp (by omega)

/-- C1 (amended): `retrieve` returns at least one result provided `top_k ≥ 1`
and at least one generated candidate (after the fallback full scan) scores
strictly positively; a non-empty corpus and non-empty query alone do not
suffice, because candidates with score 0 are filtered out. -/
theorem c1_amended_theorem (query : Str) (inv : List (Str × List Str))
    (cbid : List (Str × RChunk)) (top_k maxc : Nat) (ad : Bool)
    (htop : 1 ≤ top_k)
    (hc : ∃ cid ∈ candidatesWithFallback query inv cbid maxc,
       ∃ ch, cbidGet cbid cid = some ch ∧ ch.text ≠ [] ∧ 0 < (scoreChunk query ch).1) :
    retrieveM query inv cbid top_k maxc ad ≠ [] := by
  unfold retrieveM
  dsimp only
  obtain ⟨cid, hcid, ch, hget, htext, hscore⟩ := hc
  have hne : scoredResults query cbid (candidatesWithFallback query inv cbid maxc) ≠ [] := by
    intro hnil
    unfold scoredResults at hnil
    rw [List.filterMap_eq_nil] at hnil
    have hthis := hnil cid hcid
    rw [hget] at hthis
    dsimp only at hthis
    rw [if_neg (by simpa [List.isEmpty_iff] using htext), if_pos hscore] at hthis
    exact absurd hthis (by simp)
  have hslen : sortByScore (scoredResults query cbid
      (candidatesWithFallback query inv cbid maxc)) ≠ [] := by
    intro hnil
    have hl := sortByScore_length (scoredResults query cbid
      (candidatesWithFallback query inv cbid maxc))
    rw [hnil] at hl
    simp at hl
    exact hne (List.eq_nil_of_length_eq_zero hl.symm)
  split
  · exact diversify_ne_nil _ top_k 2 hslen htop (by omega)
  · intro hnil
    rw [List.take_eq_nil_iff] at hnil
    rcases hnil with h | h
    · omega
    · exact hslen h

/-- C1 witness: one chunk containing `hello`, query `hello`; the fallback
candidate scores 1 and retrieval returns it. -/
theorem c1_witness :
    retrieveM (strL "hello") []
      [(strL "c0", ⟨strL "c0", strL "hello there", strL "", strL "", []⟩)] 6 80 true ≠ [] :=
  c1_amended_theorem (strL "hello") []
    [(strL "c0", ⟨strL "c0", strL "hello there", strL "", strL "", []⟩)] 6 80 true
    (by omega) (by decide)

/-- C1 counterexample: a non-empty corpus (one chunk `hello`) and a non-empty
query (`zz`) for which `retrieve` returns no results: the fallback full scan
produces a candidate, but its score is 0 and it is filtered out. -/
theorem c1_counterexample :
    strL "zz" ≠ [] ∧
    ([(strL "c0", (⟨strL "c0", strL "hello", strL "", strL "", []⟩ : RChunk))] :
      List (Str × RChunk)) ≠ [] ∧
    retrieveM (strL "zz") []
      [(strL "c0", ⟨strL "c0", strL "hello", strL "", strL "", []⟩)] 6 80 true = [] := by
  refine ⟨by decide, by decide, by decide⟩

/-- C7 (amended): a line is a role header if and only if it is non-empty
after stripping, non-bullet, not a sentence-like continuation, contains a
role-hint word, and contains a date signal, where a date signal is a date
range, a month+year pair, or a bare four-digit year starting 19 or 20 — so a
line with a role-hint word and only a bare year IS a role header. -/
theorem c7_amended_theorem (line : Str) :
    is_probable_role_header line = true ↔
      (trimmed line ≠ [] ∧ is_bullet (trimmed line) = false ∧
       isSentenceLikeContinuation (trimmed line) = false ∧
       roleHintSearch (trimmed line) = true ∧
       (dateRangeSearch (trimmed line) = true ∨
        (monthSearch (trimmed line) = true ∧ yearSearch (trimmed line) = true) ∨
        yearSearch (trimmed line) = true)) := by
  unfold is_probable_role_header hasDateSignal
  simp only [Bool.and_eq_true, Bool.or_eq_true, Bool.not_eq_true',
    List.isEmpty_eq_false]
  tauto

/-- C7 witness: `Engineer 2020` — role-hint word plus a bare year and
nothing else — is classified as a role header. -/
theorem c7_witness : is_probable_role_header (strL "Engineer 2020") = true :=
  (c7_amended_theorem (strL "Engineer 2020")).mpr (by decide)

/-- C7 counterexample: `Engineer 2020` is a role header although it contains
no month and no date range, refuting the claim that a month+year pair or an
explicit range is required. -/
theorem c7_counterexample :
    is_probable_role_header (strL "Engineer 2020") = true ∧
    monthSearch (trimmed (strL "Engineer 2020")) = false ∧
    dateRangeSearch (trimmed (strL "Engineer 2020")) = false := by
  refine ⟨by decide, by decide, by decide⟩

theorem phraseLoop_any (ts : List Str) (nq nt : Str) :
    (phraseLoop ts nq nt).1 =
      if ts.any (fun t => strContains nq t && strContains nt t) then (2 : ℚ)
      else 0 := by
  induction ts with
  | nil => simp [phraseLoop]
  | cons t ts ih =>
    rw [phraseLoop]
    by_cases h : (strContains nq t && strContains nt t) = true
    · simp [h]
    · rw [if_neg h]
      rw [ih]
      simp only [List.any_cons, h, Bool.false_or]

/-- C9 (confirmed): the phrase/tech-term boost of `retrieve` contributes
exactly 2 when some term of the fixed list is a substring of both normalized
texts and 0 otherwise (the loop breaks after the first matching term, so the
boost is added at most once per chunk); and the two-letter term `ai` does
occur inside the normalized form of `maintained`. -/
theorem c9_theorem :
    (∀ nq nt : Str, (phraseLoop techTerms nq nt).1 =
       if techTerms.any (fun t => strContains nq t && strContains nt t) then (2 : ℚ)
       else 0) ∧
    strContains (normalize_text_for_phrase_matching (strL "maintained")) (strL "ai") =
      true := by
  refine ⟨fun nq nt => phraseLoop_any techTerms nq nt, by decide⟩

theorem allws_collapseSTF (fuel : Nat) :
    ∀ cs : Str, (∀ c ∈ cs, isPyWS c = true) →
      ∀ c ∈ collapseSTF fuel cs, isPyWS c = true := by
  induction fuel with
  | zero => intro cs h c hc; exact h c hc
  | succ fuel ih =>
    intro cs h c hc
    rw [collapseSTF.eq_def] at hc
    cases cs with
    | nil => simp at hc
    | cons x xs =>
      dsimp only at hc
      by_cases hx : isST x = true
      · rw [if_pos hx] at hc
        rcases List.mem_cons.mp hc with hc | hc
        · rw [hc]; rfl
        · exact ih _ (fun d hd => h d (List.mem_cons_of_mem x
            ((List.dropWhile_sublist isST).mem hd))) c hc
      · rw [if_neg hx] at hc
        rcases List.mem_cons.mp hc with hc | hc
        · rw [hc]; exact h x (List.mem_cons_self x xs)
        · exact ih _ (fun d hd => h d (List.mem_cons_of_mem x hd)) c hc

theorem normalize_text_allws {s : Str} (hws : ∀ c ∈ s, isPyWS c = true) :
    normalize_text s = [] := by
  unfold normalize_text
  apply (trimmed_eq_nil_iff _).mpr
  intro x hx
  refine allws_collapseSTF _ _ ?_ x hx
  intro c hc
  obtain ⟨a, ha, hac⟩ := List.mem_map.mp hc
  by_cases har : a = '\r'
  · rw [← hac, if_pos har]; rfl
  · rw [← hac, if_neg har]; exact hws a ha

theorem to_lines_allws {s : Str} (hws : ∀ c ∈ s, isPyWS c = true) :
    to_lines s = [] := by
  unfold to_lines
  rw [normalize_text_allws hws]
  rfl

/-- C10 (confirmed): on an input consisting only of whitespace characters
(including the empty string), `create_contextual_chunks` returns the empty
list, for every source, chunk size and overlap ratio. -/
theorem c10_theorem (s : Str) (hws : ∀ c ∈ s, isPyWS c = true)
    (source : Str) (chunk_size : Nat) (overlap_ratio : ℚ) :
    create_contextual_chunks s source chunk_size overlap_ratio = [] := by
  unfold create_contextual_chunks
  rw [to_lines_allws hws]
  rfl

/-- C10 witness: the theorem applied to the whitespace string `" \t\n "`. -/
theorem c10_witness :
    create_contextual_chunks (strL " \t\n ") (strL "KimTae-SWE-Resume.pdf") 500
      (mkRat 1 10) = [] :=
  c10_theorem (strL " \t\n ") (by decide) (strL "KimTae-SWE-Resume.pdf") 500 (mkRat 1 10)

theorem alFind_cons_eq (k : Str) (v : List Str) (m : SecMap) :
    alFind ((k, v) :: m) k = some v := by
  unfold alFind
  rw [List.find?_cons_of_pos _ (by simp)]
  rfl

theorem alFind_cons_ne {k k' : Str} (v : List Str) (m : SecMap) (h : k' ≠ k) :
    alFind ((k', v) :: m) k = alFind m k := by
  unfold alFind
  rw [List.find?_cons_of_neg _ (by simpa using h)]

theorem alFind_some_has {m : SecMap} {k : Str} {v : List Str}
    (h : alFind m k = some v) : alHas m k = true := by
  unfold alFind at h
  unfold alHas
  rw [List.any_eq_true]
  obtain ⟨p, hp⟩ := Option.map_eq_some'.mp h
  exact ⟨p, List.mem_of_find?_eq_some hp.1, by
    have := List.find?_some hp.1
    simpa using this⟩

theorem alFind_append_left {m : SecMap} {k : Str} {v : List Str} (rest : SecMap)
    (h : alFind m k = some v) : alFind (m ++ rest) k = some v := by
  unfold alFind at h ⊢
  rw [List.find?_append]
  obtain ⟨p, hp1, hp2⟩ := Option.map_eq_some'.mp h
  rw [hp1]
  simp [hp2]

theorem alFind_alSetD {m : SecMap} {k k' : Str} {v : List Str}
    (h : alFind m k = some v) : alFind (alSetD m k') k = some v := by
  unfold alSetD
  split
  · exact h
  · exact alFind_append_left _ h

theorem alFind_map_append (m : SecMap) (k cur : Str) (l : Str) :
    alFind (m.map fun p => if p.1 == cur then (p.1, p.2 ++ [l]) else p) k =
      if k = cur then (alFind m k).map (· ++ [l]) else alFind m k := by
  induction m with
  | nil => simp [alFind]
  | cons p m ih =>
    obtain ⟨k₁, v₁⟩ := p
    by_cases h1 : k₁ = k
    · subst h1
      by_cases h2 : k₁ = cur
      · subst h2
        rw [List.map_cons, if_pos (by simp)]
        rw [if_pos rfl]
        rw [alFind_cons_eq, alFind_cons_eq]
        rfl
      · rw [List.map_cons, if_neg (by simpa using h2)]
        rw [if_neg h2]
        rw [alFind_cons_eq, alFind_cons_eq]
    · by_cases h2 : k₁ = cur
      · subst h2
        rw [List.map_cons, if_pos (by simp)]
        rw [alFind_cons_ne _ _ h1, alFind_cons_ne _ _ h1, ih]
      · rw [List.map_cons, if_neg (by simpa using h2)]
        rw [alFind_cons_ne _ _ h1, alFind_cons_ne _ _ h1, ih]

theorem alFind_alAppend_eq {m : SecMap} {k : Str} {v : List Str} (l : Str)
    (h : alFind m k = some v) : alFind (alAppend m k l) k = some (v ++ [l]) := by
  unfold alAppend
  rw [if_pos (alFind_some_has h)]
  rw [alFind_map_append, if_pos rfl, h]
  rfl

theorem alFind_alAppend_ne {m : SecMap} {k cur : Str} {v : List Str} (l : Str)
    (hne : k ≠ cur) (h : alFind m k = some v) :
    alFind (alAppend m cur l) k = some v := by
  unfold alAppend
  split
  · rw [alFind_map_append, if_neg hne, h]
  · exact alFind_append_left _ h

theorem alFind_alPop_ne {m : SecMap} {k k' : Str} (hne : k ≠ k') :
    alFind (alPop m k') k = alFind m k := by
  induction m with
  | nil => rfl
  | cons p m ih =>
    obtain ⟨k₁, v₁⟩ := p
    unfold alPop
    rw [List.filter_cons]
    by_cases h1 : k₁ = k'
    · subst h1
      rw [if_neg (by simp)]
      rw [alFind_cons_ne _ _ (fun hh => hne hh.symm)]
      exact ih
    · rw [if_pos (by simpa using h1)]
      by_cases h2 : k₁ = k
      · subst h2
        rw [alFind_cons_eq, alFind_cons_eq]
      · rw [alFind_cons_ne _ _ h2, alFind_cons_ne _ _ h2]
        exact ih

theorem sbsStep_firstName_ne_none {st : SbsState} {l : Str}
    (h : st.firstName ≠ none) : (sbsStep st l).firstName ≠ none := by
  unfold sbsStep
  dsimp only
  rw [if_neg h]
  split
  · exact h
  · exact h

theorem sbsStep_existing {st : SbsState} {l : Str} {k : Str} {v : List Str}
    (hfn : st.firstName ≠ none) (hfind : alFind st.sections k = some v) :
    (alFind (sbsStep st l).sections k = some v ∧
      ((sbsStep st l).current = st.current ∨
        (sbsStep st l).current = canonicalize_header l)) ∨
    (k = st.current ∧ alFind (sbsStep st l).sections k = some (v ++ [l]) ∧
      (sbsStep st l).current = st.current) := by
  unfold sbsStep
  dsimp only
  rw [if_neg hfn]
  split
  · exact Or.inl ⟨alFind_alSetD hfind, Or.inr rfl⟩
  · by_cases hk : k = st.current
    · subst hk
      exact Or.inr ⟨rfl, alFind_alAppend_eq l hfind, rfl⟩
    · exact Or.inl ⟨alFind_alAppend_ne l hk hfind, Or.inl rfl⟩

theorem rest_phase_untouched :
    ∀ (rs : List Str) (st : SbsState) (k : Str) (v : List Str),
      st.firstName ≠ none → st.current ≠ k →
      (∀ l ∈ rs, canonicalize_header l ≠ k) →
      alFind st.sections k = some v →
      alFind ((rs.foldl sbsStep st)).sections k = some v := by
  intro rs
  induction rs with
  | nil => intro st k v _ _ _ h; exact h
  | cons l ls ih =>
    intro st k v hfn hcur hhead h
    rw [List.foldl_cons]
    rcases sbsStep_existing hfn h with ⟨hfind, hc⟩ | ⟨hk, _, _⟩
    · refine ih _ _ _ (sbsStep_firstName_ne_none hfn) ?_
        (fun x hx => hhead x (List.mem_cons_of_mem l hx)) hfind
      rcases hc with hc | hc
      · rw [hc]; exact hcur
      · rw [hc]; exact hhead l (List.mem_cons_self l ls)
    · exact absurd hk.symm hcur

theorem rest_phase_append_only :
    ∀ (rs : List Str) (st : SbsState) (k : Str) (v : List Str),
      st.firstName ≠ none →
      alFind st.sections k = some v →
      ∃ suf, alFind ((rs.foldl sbsStep st)).sections k = some (v ++ suf) := by
  intro rs
  induction rs with
  | nil => intro st k v _ h; exact ⟨[], by simpa using h⟩
  | cons l ls ih =>
    intro st k v hfn h
    rw [List.foldl_cons]
    rcases sbsStep_existing (l := l) hfn h with ⟨hfind, _⟩ | ⟨_, hfind, _⟩
    · exact ih _ _ _ (sbsStep_firstName_ne_none hfn) hfind
    · obtain ⟨suf, hsuf⟩ := ih _ _ _ (sbsStep_firstName_ne_none hfn) hfind
      exact ⟨[l] ++ suf, by rw [hsuf]; simp⟩

theorem pre_phase :
    ∀ (pre : List Str) (acc : List Str),
      (∀ l ∈ pre, sectionHeaders.contains (canonicalize_header l) = false) →
      pre.foldl sbsStep ⟨[(strL "UNKNOWN", acc)], strL "UNKNOWN", none⟩ =
        ⟨[(strL "UNKNOWN", acc ++ pre)], strL "UNKNOWN", none⟩ := by
  intro pre
  induction pre with
  | nil => intro acc _; simp
  | cons l ls ih =>
    intro acc hh
    rw [List.foldl_cons]
    have hstep : sbsStep ⟨[(strL "UNKNOWN", acc)], strL "UNKNOWN", none⟩ l =
        ⟨[(strL "UNKNOWN", acc ++ [l])], strL "UNKNOWN", none⟩ := by
      unfold sbsStep
      rw [if_neg (by rw [hh l (List.mem_cons_self l ls)]; simp)]
      unfold alAppend alHas
      simp
    rw [hstep, ih (acc ++ [l]) (fun x hx => hh x (List.mem_cons_of_mem l hx))]
    simp

theorem alHas_cons (k₁ : Str) (v₁ : List Str) (m : SecMap) (k : Str) :
    alHas ((k₁, v₁) :: m) k = ((k₁ == k) || alHas m k) := by
  unfold alHas
  rw [List.any_cons]

theorem alSet_not_has {m : SecMap} {k : Str} (v : List Str)
    (h : alHas m k = false) : alSet m k v = m ++ [(k, v)] := by
  unfold alSet
  rw [h]
  simp

theorem alSet_has {m : SecMap} {k : Str} (v : List Str) (h : alHas m k = true) :
    alSet m k v = m.map fun p => if p.1 == k then (p.1, v) else p := by
  unfold alSet
  rw [h]
  simp

theorem alSetD_has {m : SecMap} {k : Str} (h : alHas m k = true) :
    alSetD m k = m := by
  unfold alSetD
  rw [h]
  simp

theorem first_header_step (pre : List Str) (h : Str)
    (hpre_ne : pre ≠ [])
    (hh : sectionHeaders.contains (canonicalize_header h) = true)
    (hmh_unk : canonicalize_header h ≠ strL "UNKNOWN")
    (hmh_soc : canonicalize_header h ≠ strL "SOCIALS")
    (hcontact : pre.filter (fun l => is_contact_info_line l) ≠ []) :
    sbsStep ⟨[(strL "UNKNOWN", pre)], strL "UNKNOWN", none⟩ h =
      ⟨[(strL "UNKNOWN", []),
        (canonicalize_header h,
          (pre.filter (fun l => !is_contact_info_line l)).drop 1),
        (strL "SOCIALS",
          (pre.filter (fun l => !is_contact_info_line l)).take 1 ++
            pre.filter (fun l => is_contact_info_line l))],
       canonicalize_header h, some (canonicalize_header h)⟩ := by
  have hget : alGetD [(strL "UNKNOWN", pre)] (strL "UNKNOWN") = pre := by
    unfold alGetD
    rw [alFind_cons_eq]
    rfl
  have hbU : (strL "UNKNOWN" == canonicalize_header h) = false := by
    rw [beq_eq_false_iff_ne]
    exact fun he => hmh_unk he.symm
  have hbS1 : (strL "UNKNOWN" == strL "SOCIALS") = false := by decide
  have hbS2 : (canonicalize_header h == strL "SOCIALS") = false := by
    rw [beq_eq_false_iff_ne]
    exact hmh_soc
  have e1 : alSet [(strL "UNKNOWN", pre)] (canonicalize_header h)
      ((pre.filter (fun l => !is_contact_info_line l)).drop 1) =
      [(strL "UNKNOWN", pre),
       (canonicalize_header h, (pre.filter (fun l => !is_contact_info_line l)).drop 1)] := by
    rw [alSet_not_has _ (by rw [alHas_cons, hbU]; rfl)]
    rfl
  have e2 : alSet [(strL "UNKNOWN", pre),
      (canonicalize_header h, (pre.filter (fun l => !is_contact_info_line l)).drop 1)]
      (strL "SOCIALS")
      ((pre.filter (fun l => !is_contact_info_line l)).take 1 ++
        pre.filter (fun l => is_contact_info_line l)) =
      [(strL "UNKNOWN", pre),
       (canonicalize_header h, (pre.filter (fun l => !is_contact_info_line l)).drop 1),
       (strL "SOCIALS",
         (pre.filter (fun l => !is_contact_info_line l)).take 1 ++
           pre.filter (fun l => is_contact_info_line l))] := by
    rw [alSet_not_has _ (by rw [alHas_cons, hbS1, alHas_cons, hbS2]; rfl)]
    simp
  have e3 : alSet [(strL "UNKNOWN", pre),
      (canonicalize_header h, (pre.filter (fun l => !is_contact_info_line l)).drop 1),
      (strL "SOCIALS",
        (pre.filter (fun l => !is_contact_info_line l)).take 1 ++
          pre.filter (fun l => is_contact_info_line l))] (strL "UNKNOWN") [] =
      [(strL "UNKNOWN", []),
       (canonicalize_header h, (pre.filter (fun l => !is_contact_info_line l)).drop 1),
       (strL "SOCIALS",
         (pre.filter (fun l => !is_contact_info_line l)).take 1 ++
           pre.filter (fun l => is_contact_info_line l))] := by
    rw [alSet_has _ (by rw [alHas_cons]; simp)]
    have hsu : strL "SOCIALS" ≠ strL "UNKNOWN" := by decide
    simp [hmh_unk, hsu]
  unfold sbsStep
  dsimp only
  rw [if_pos hh, if_pos rfl, hget, if_pos hpre_ne, if_pos hcontact, e1, e2, e3]
  rw [alSetD_has (by rw [alHas_cons, alHas_cons]; simp)]

/-- C5 (amended): on detection of the first known section header (not itself
`SOCIALS`, with no later `SOCIALS` header), if the accumulated `UNKNOWN`
lines contain at least one contact-information line, then the synthetic
`SOCIALS` section consists of the FIRST non-contact line (kept as a name
line, when one exists) followed by exactly the contact lines, and the
non-contact lines AFTER the first become the opening lines of the first real
section. -/
theorem c5_amended_theorem (pre rest : List Str) (h : Str)
    (hpre : ∀ l ∈ pre, sectionHeaders.contains (canonicalize_header l) = false)
    (hh : sectionHeaders.contains (canonicalize_header h) = true)
    (hmh_soc : canonicalize_header h ≠ strL "SOCIALS")
    (hrest : ∀ l ∈ rest, canonicalize_header l ≠ strL "SOCIALS")
    (hcontact : pre.filter (fun l => is_contact_info_line l) ≠ []) :
    alFind (split_by_sections (pre ++ h :: rest)) (strL "SOCIALS") =
      some ((pre.filter (fun l => !is_contact_info_line l)).take 1 ++
        pre.filter (fun l => is_contact_info_line l)) ∧
    ∃ suf, alFind (split_by_sections (pre ++ h :: rest)) (canonicalize_header h) =
      some ((pre.filter (fun l => !is_contact_info_line l)).drop 1 ++ suf) := by
  have hpre_ne : pre ≠ [] := by
    intro hp
    rw [hp] at hcontact
    exact hcontact rfl
  have hmh_unk : canonicalize_header h ≠ strL "UNKNOWN" := by
    intro he
    rw [he] at hh
    exact absurd hh (by decide)
  have hpp : pre.foldl sbsStep ⟨[(strL "UNKNOWN", [])], strL "UNKNOWN", none⟩ =
      ⟨[(strL "UNKNOWN", pre)], strL "UNKNOWN", none⟩ := by
    rw [pre_phase pre [] hpre]
    simp
  unfold split_by_sections
  rw [List.foldl_append, hpp, List.foldl_cons,
    first_header_step pre h hpre_ne hh hmh_unk hmh_soc hcontact]
  dsimp only
  have hfnn : (⟨[(strL "UNKNOWN", []),
      (canonicalize_header h, (pre.filter (fun l => !is_contact_info_line l)).drop 1),
      (strL "SOCIALS",
        (pre.filter (fun l => !is_contact_info_line l)).take 1 ++
          pre.filter (fun l => is_contact_info_line l))],
     canonicalize_header h, some (canonicalize_header h)⟩ : SbsState).firstName ≠
      none := by simp
  have hsoc_find : alFind [(strL "UNKNOWN", ([] : List Str)),
      (canonicalize_header h, (pre.filter (fun l => !is_contact_info_line l)).drop 1),
      (strL "SOCIALS",
        (pre.filter (fun l => !is_contact_info_line l)).take 1 ++
          pre.filter (fun l => is_contact_info_line l))] (strL "SOCIALS") =
      some ((pre.filter (fun l => !is_contact_info_line l)).take 1 ++
        pre.filter (fun l => is_contact_info_line l)) := by
    rw [alFind_cons_ne _ _ (by decide), alFind_cons_ne _ _ hmh_soc, alFind_cons_eq]
  have hmh_find : alFind [(strL "UNKNOWN", ([] : List Str)),
      (canonicalize_header h, (pre.filter (fun l => !is_contact_info_line l)).drop 1),
      (strL "SOCIALS",
        (pre.filter (fun l => !is_contact_info_line l)).take 1 ++
          pre.filter (fun l => is_contact_info_line l))] (canonicalize_header h) =
      some ((pre.filter (fun l => !is_contact_info_line l)).drop 1) := by
    rw [alFind_cons_ne _ _ (fun he => hmh_unk he.symm), alFind_cons_eq]
  have hfold_soc := rest_phase_untouched rest _ (strL "SOCIALS") _ hfnn hmh_soc
    hrest hsoc_find
  have hfold_mh := rest_phase_append_only rest _ (canonicalize_header h) _ hfnn hmh_find
  constructor
  · split
    · rw [alFind_alPop_ne (by decide)]
      exact hfold_soc
    · exact hfold_soc
  · obtain ⟨suf, hsuf⟩ := hfold_mh
    refine ⟨suf, ?_⟩
    split
    · rw [alFind_alPop_ne hmh_unk]
      exact hsuf
    · exact hsuf

/-- C5 witness: the theorem applied to the concrete pre-header block
`["Tae Kim", "Seattle", "github.com/tae"]` followed by `EDUCATION`. -/
theorem c5_witness :
    alFind (split_by_sections
        [strL "Tae Kim", strL "Seattle", strL "github.com/tae", strL "EDUCATION"])
      (strL "SOCIALS") =
      some (([strL "Tae Kim", strL "Seattle", strL "github.com/tae"].filter
          (fun l => !is_contact_info_line l)).take 1 ++
        [strL "Tae Kim", strL "Seattle", strL "github.com/tae"].filter
          (fun l => is_contact_info_line l)) ∧
    ∃ suf, alFind (split_by_sections
        [strL "Tae Kim", strL "Seattle", strL "github.com/tae", strL "EDUCATION"])
      (canonicalize_header (strL "EDUCATION")) =
      some (([strL "Tae Kim", strL "Seattle", strL "github.com/tae"].filter
          (fun l => !is_contact_info_line l)).drop 1 ++ suf) :=
  c5_amended_theorem [strL "Tae Kim", strL "Seattle", strL "github.com/tae"] []
    (strL "EDUCATION") (by decide) (by decide) (by decide) (by decide) (by decide)

/-- C5 counterexample: with pre-header lines
`["Tae Kim", "Seattle", "github.com/tae"]` before `EDUCATION`, the SOCIALS
section is NOT exactly the contact lines (it also holds the name line
`Tae Kim`), and the non-contact line `Tae Kim` does NOT open the first real
section. -/
theorem c5_counterexample :
    is_contact_info_line (strL "Tae Kim") = false ∧
    is_contact_info_line (strL "Seattle") = false ∧
    is_contact_info_line (strL "github.com/tae") = true ∧
    ¬ alFind (split_by_sections
        [strL "Tae Kim", strL "Seattle", strL "github.com/tae", strL "EDUCATION"])
      (strL "SOCIALS") = some [strL "github.com/tae"] ∧
    alFind (split_by_sections
        [strL "Tae Kim", strL "Seattle", strL "github.com/tae", strL "EDUCATION"])
      (strL "EDUCATION") = some [strL "Seattle"] := by
  refine ⟨by decide, by decide, by decide, by decide, by decide⟩

/-! ### C6: `group_by_entity` never silently drops content -/

/-- A string whose first and last characters (if any) are non-whitespace;
this is the shape of any output of `trimmed`. -/
def nwBounded (x : Str) : Prop :=
  (∀ c, x.head? = some c → isPyWS c = false) ∧
  (∀ c, x.getLast? = some c → isPyWS c = false)

theorem dropWhile_head?_not (p : Char → Bool) :
    ∀ (l : Str) (c : Char), (l.dropWhile p).head? = some c → p c = false := by
  intro l
  induction l with
  | nil => intro c h; simp [List.dropWhile] at h
  | cons a l ih =>
    intro c h
    rw [List.dropWhile_cons] at h
    cases hp : p a with
    | true => rw [if_pos hp] at h; exact ih c h
    | false =>
      rw [if_neg (by simp [hp])] at h
      rw [List.head?_cons] at h
      injection h with h
      subst h
      exact hp

theorem dropWhile_getLast? (p : Char → Bool) (l : Str)
    (h : l.dropWhile p ≠ []) : (l.dropWhile p).getLast? = l.getLast? := by
  have h2 := List.getLast?_append_of_ne_nil (l.takeWhile p) h
  rw [List.takeWhile_append_dropWhile] at h2
  exact h2.symm

theorem trimmed_head? (l : Str) (c : Char) (h : (trimmed l).head? = some c) :
    isPyWS c = false := by
  unfold trimmed at h
  rw [List.head?_reverse] at h
  have hz : List.dropWhile isPyWS (l.dropWhile isPyWS).reverse ≠ [] := by
    intro hz
    rw [hz] at h
    simp at h
  rw [dropWhile_getLast? _ _ hz, List.getLast?_reverse] at h
  exact dropWhile_head?_not isPyWS l c h

theorem trimmed_getLast? (l : Str) (c : Char) (h : (trimmed l).getLast? = some c) :
    isPyWS c = false := by
  unfold trimmed at h
  rw [List.getLast?_reverse] at h
  exact dropWhile_head?_not _ _ c h

theorem trimmed_nwBounded (l : Str) : nwBounded (trimmed l) :=
  ⟨fun c h => trimmed_head? l c h, fun c h => trimmed_getLast? l c h⟩

theorem dropWhile_eq_self_of_head (p : Char → Bool) (l : Str)
    (h : ∀ c, l.head? = some c → p c = false) : l.dropWhile p = l := by
  cases l with
  | nil => rfl
  | cons a l =>
    have ha := h a rfl
    rw [List.dropWhile_cons, if_neg (by simp [ha])]

theorem trimmed_idem (l : Str) : trimmed (trimmed l) = trimmed l := by
  have h1 : List.dropWhile isPyWS (trimmed l) = trimmed l :=
    dropWhile_eq_self_of_head _ _ (trimmed_head? l)
  have h2 : List.dropWhile isPyWS (trimmed l).reverse = (trimmed l).reverse := by
    apply dropWhile_eq_self_of_head
    intro c hc
    rw [List.head?_reverse] at hc
    exact trimmed_getLast? l c hc
  show ((List.dropWhile isPyWS (trimmed l)).reverse.dropWhile isPyWS).reverse = trimmed l
  rw [h1, h2, List.reverse_reverse]

theorem splitsAux_snd_suffix : ∀ (cs : Str) (pre : Str) (pr : Str × Str),
    pr ∈ splitsAux pre cs → pr.2 <:+ cs := by
  intro cs
  induction cs with
  | nil =>
    intro pre pr h
    rw [splitsAux] at h
    rcases List.mem_singleton.mp h with rfl
    exact List.suffix_rfl
  | cons c cs ih =>
    intro pre pr h
    rw [splitsAux] at h
    rcases List.mem_cons.mp h with rfl | h'
    · exact List.suffix_rfl
    · exact (ih (c :: pre) pr h').trans (List.suffix_cons c cs)

theorem splitsAux_mem_of_suffix : ∀ (cs : Str) (pre s : Str),
    s <:+ cs → ∃ p, (p, s) ∈ splitsAux pre cs := by
  intro cs
  induction cs with
  | nil =>
    intro pre s h
    rw [List.suffix_nil] at h
    subst h
    exact ⟨pre, by rw [splitsAux]; exact List.mem_singleton.mpr rfl⟩
  | cons c cs ih =>
    intro pre s h
    rcases List.suffix_cons_iff.mp h with rfl | h'
    · exact ⟨pre, by rw [splitsAux]; exact List.mem_cons_self _ _⟩
    · obtain ⟨p, hp⟩ := ih (c :: pre) s h'
      exact ⟨p, by rw [splitsAux]; exact List.mem_cons_of_mem _ hp⟩

theorem strContains_substring_iff (hay nd : Str) :
    strContains hay nd = true ↔ nd <:+: hay := by
  constructor
  · intro h
    rw [strContains, List.any_eq_true] at h
    obtain ⟨pr, hmem, hpre⟩ := h
    exact (List.isPrefixOf_iff_prefix.mp hpre).isInfix.trans
      (splitsAux_snd_suffix hay [] pr hmem).isInfix
  · intro h
    obtain ⟨u, v, huv⟩ := h
    rw [strContains, List.any_eq_true]
    have hsuf : nd ++ v <:+ hay := by
      rw [← huv, List.append_assoc]
      exact List.suffix_append u (nd ++ v)
    obtain ⟨p, hp⟩ := splitsAux_mem_of_suffix hay [] (nd ++ v) hsuf
    exact ⟨(p, nd ++ v), hp, List.isPrefixOf_iff_prefix.mpr (List.prefix_append nd v)⟩

theorem infix_dropWhile (p : Char → Bool) : ∀ (t nd : Str), nd <:+: t → nd ≠ [] →
    (∀ c, nd.head? = some c → p c = false) → nd <:+: t.dropWhile p := by
  intro t
  induction t with
  | nil =>
    intro nd h hne _
    rw [List.infix_nil] at h
    exact absurd h hne
  | cons a t ih =>
    intro nd h hne hhead
    cases hp : p a with
    | false =>
      rw [List.dropWhile_cons, if_neg (by simp [hp])]
      exact h
    | true =>
      rw [List.dropWhile_cons, if_pos hp]
      rcases List.infix_cons_iff.mp h with hpre | hinf
      · exfalso
        obtain ⟨r, hr⟩ := hpre
        cases nd with
        | nil => exact hne rfl
        | cons d nd' =>
          have hd : d = a := by
            have := congrArg List.head? hr
            simpa using this
          have hpd : p d = false := hhead d rfl
          rw [hd, hp] at hpd
          simp at hpd
      · exact ih nd hinf hne hhead

theorem infix_trimmed (t nd : Str) (h : nd <:+: t) (hne : nd ≠ [])
    (hb : nwBounded nd) : nd <:+: trimmed t := by
  have h1 : nd <:+: t.dropWhile isPyWS := infix_dropWhile isPyWS t nd h hne hb.1
  have h2 : nd.reverse <:+: (t.dropWhile isPyWS).reverse := List.reverse_infix.mpr h1
  have h3 : nd.reverse <:+: ((t.dropWhile isPyWS).reverse).dropWhile isPyWS := by
    apply infix_dropWhile isPyWS _ _ h2
    · simp [hne]
    · intro c hc
      rw [List.head?_reverse] at hc
      exact hb.2 c hc
  have h4 := List.reverse_infix.mpr h3
  rw [List.reverse_reverse] at h4
  exact h4

theorem mem_infix_intercalate (sep : Str) : ∀ (bufs : List Str) (x : Str),
    x ∈ bufs → x <:+: List.intercalate sep bufs := by
  intro bufs
  induction bufs with
  | nil => intro x hx; cases hx
  | cons y ys ih =>
    intro x hx
    cases ys with
    | nil =>
      rcases List.mem_cons.mp hx with rfl | hx'
      · rw [show List.intercalate sep [x] = x from by simp [List.intercalate]]
      · cases hx'
    | cons z zs =>
      rcases List.mem_cons.mp hx with rfl | hx'
      · rw [show List.intercalate sep (x :: z :: zs) =
            x ++ sep ++ List.intercalate sep (z :: zs) from by
          simp [List.intercalate, List.intersperse]]
        rw [List.append_assoc]
        exact (List.prefix_append x _).isInfix
      · rw [show List.intercalate sep (y :: z :: zs) =
            y ++ sep ++ List.intercalate sep (z :: zs) from by
          simp [List.intercalate, List.intersperse]]
        exact (ih x hx').trans (List.suffix_append _ _).isInfix

theorem strContains_intercalate (bufs : List Str) (x : Str) (hx : x ∈ bufs)
    (hne : x ≠ []) (hb : nwBounded x) :
    strContains (trimmed (List.intercalate (strL "\n") bufs)) x = true :=
  (strContains_substring_iff _ x).mpr
    (infix_trimmed _ x (mem_infix_intercalate _ bufs x hx) hne hb)

/-- Loop invariant of `group_by_entity`: a closed entity means an empty
buffer, an open entity is a non-empty string, and every buffered line is
non-empty with non-whitespace ends. -/
def GbeInv (st : GbeState) : Prop :=
  (st.currentEntity = none → st.buf = []) ∧
  (∀ e, st.currentEntity = some e → e ≠ []) ∧
  (∀ x ∈ st.buf, x ≠ [] ∧ nwBounded x)

theorem defaultGeneral_ne_nil (o : Option Str) (h : ∀ e, o = some e → e ≠ []) :
    ∃ e, defaultGeneral o = some e ∧ e ≠ [] := by
  cases o with
  | none => exact ⟨strL "General", rfl, by decide⟩
  | some e => exact ⟨e, rfl, h e rfl⟩

theorem defaultEntity_ne_nil (st : GbeState)
    (h : ∀ e, st.currentEntity = some e → e ≠ []) :
    ∃ e, defaultEntity st = some e ∧ e ≠ [] := by
  cases hce : st.currentEntity with
  | some e => exact ⟨e, by simp [defaultEntity, hce], h e hce⟩
  | none =>
    cases hcc : st.currentCompany with
    | none => exact ⟨strL "General", by simp [defaultEntity, hce, hcc], by decide⟩
    | some cmp =>
      cases hemp : cmp.isEmpty with
      | true =>
        exact ⟨strL "General", by simp [defaultEntity, hce, hcc, hemp], by decide⟩
      | false =>
        exact ⟨cmp, by simp [defaultEntity, hce, hcc, hemp],
          List.isEmpty_eq_false.mp hemp⟩

theorem upper_not_sep {c sep : Char} (hc : c.isUpper = true)
    (hsep : sep ∈ entitySepChars) : (c != sep) = true := by
  rcases (by simpa [entitySepChars] using hsep :
      sep = '|' ∨ sep = '—' ∨ sep = '–') with rfl | rfl | rfl
  all_goals
    simp only [bne_iff_ne, ne_eq]
    intro h
    rw [h] at hc
    exact absurd hc (by decide)

theorem upper_not_ws {c : Char} (hc : c.isUpper = true) : isPyWS c = false := by
  cases hw : isPyWS c with
  | false => rfl
  | true =>
    exfalso
    rw [isPyWS] at hw
    simp only [Bool.or_eq_true, decide_eq_true_eq] at hw
    rcases hw with ((((rfl | rfl) | rfl) | rfl) | rfl) | rfl
    all_goals exact absurd hc (by decide)

theorem company_ne_nil (s : Str) (hs : trimmed s = s)
    (hch : is_probable_company_header s = true) :
    trimmed ((splitOnEntitySep s).headD []) ≠ [] := by
  cases hcase : s with
  | nil =>
    subst hcase
    exact absurd hch (by decide)
  | cons c cs =>
    subst hcase
    rw [is_probable_company_header] at hch
    rw [hs] at hch
    dsimp only at hch
    have hcup : c.isUpper = true := by
      simp only [Bool.and_eq_true] at hch
      exact hch.1.1.1.1.2
    rw [splitOnEntitySep]
    cases hfind : entitySepChars.find? (fun x => (c :: cs).contains x) with
    | none =>
      dsimp only
      rw [List.headD_cons, trimmed_idem, hs]
      simp
    | some sep =>
      dsimp only
      rw [List.headD_cons, trimmed_idem]
      have hmem : sep ∈ entitySepChars := List.mem_of_find?_eq_some hfind
      have hcne : (c != sep) = true := upper_not_sep hcup hmem
      rw [List.takeWhile_cons, if_pos hcne]
      exact trimmed_ne_nil (List.mem_cons_self c _) (upper_not_ws hcup)

theorem project_header_not_bullet (s : Str) (hs : trimmed s = s)
    (h : is_probable_project_header s = true) : is_bullet s = false := by
  rw [is_probable_project_header] at h
  rw [hs] at h
  cases hb : is_bullet s with
  | false => rfl
  | true => rw [hb] at h; simp at h

theorem extractProjectEntity_trimmed (l : Str) :
    extractProjectEntity (trimmed l) = extractProjectEntity l := by
  rw [extractProjectEntity, extractProjectEntity]
  rw [trimmed_idem]

theorem band_left {a b : Bool} (h : (a && b) = true) : a = true := by
  simp only [Bool.and_eq_true] at h
  exact h.1

theorem band_right {a b : Bool} (h : (a && b) = true) : b = true := by
  simp only [Bool.and_eq_true] at h
  exact h.2

theorem gbeFlush_blocks_sub (st : GbeState) :
    ∀ b ∈ st.blocks, b ∈ (gbeFlush st).blocks := by
  intro b hb
  rw [gbeFlush]
  dsimp only
  split
  · exact List.mem_append_left _ hb
  · exact hb

theorem gbeFlush_buf_covered (st : GbeState) (hInv : GbeInv st)
    (hsome : st.currentEntity.isSome = true) :
    ∀ x ∈ st.buf, ∃ b ∈ (gbeFlush st).blocks, strContains b.content x = true := by
  intro x hx
  obtain ⟨e, he⟩ := Option.isSome_iff_exists.mp hsome
  have hene : e ≠ [] := hInv.2.1 e he
  obtain ⟨hxne, hxb⟩ := hInv.2.2 x hx
  rw [gbeFlush]
  dsimp only
  rw [he]
  have hcond : (entityTruthy (some e) && !st.buf.isEmpty) = true := by
    simp only [entityTruthy, Bool.and_eq_true, Bool.not_eq_true', List.isEmpty_eq_false]
    exact ⟨hene, List.ne_nil_of_mem hx⟩
  rw [if_pos hcond]
  exact ⟨⟨e, trimmed (List.intercalate (strL "\n") st.buf)⟩,
    List.mem_append_right _ (List.mem_singleton.mpr rfl),
    strContains_intercalate st.buf x hx hxne hxb⟩

theorem append_disposition (st : GbeState) (hInv : GbeInv st)
    (E s : Str) (hE : E ≠ []) (hs : s ≠ []) (hb : nwBounded s) :
    GbeInv ⟨st.blocks, some E, st.buf ++ [s], st.currentCompany⟩ := by
  refine ⟨fun h => Option.noConfusion h, fun e' h => ?_, fun x hx => ?_⟩
  · injection h with h
    subst h
    exact hE
  · rcases List.mem_append.mp hx with hx' | hx'
    · exact hInv.2.2 x hx'
    · rcases List.mem_singleton.mp hx' with rfl
      exact ⟨hs, hb⟩

theorem flush_append_disposition (st : GbeState) (hInv : GbeInv st)
    (E s : Str) (CC : Option Str) (hE : E ≠ []) (hs : s ≠ []) (hb : nwBounded s) :
    GbeInv ⟨(if st.currentEntity.isSome then gbeFlush st else st).blocks, some E,
            (if st.currentEntity.isSome then gbeFlush st else st).buf ++ [s], CC⟩ ∧
    (∀ b ∈ st.blocks,
       b ∈ (if st.currentEntity.isSome then gbeFlush st else st).blocks) ∧
    (∀ x ∈ st.buf,
       (∃ b ∈ (if st.currentEntity.isSome then gbeFlush st else st).blocks,
          strContains b.content x = true) ∨
       x ∈ (if st.currentEntity.isSome then gbeFlush st else st).buf ++ [s]) := by
  split
  case isTrue hsome =>
    have hfb : (gbeFlush st).buf = [] := rfl
    refine ⟨⟨fun h => Option.noConfusion h, fun e' h => ?_, fun x hx => ?_⟩,
      gbeFlush_blocks_sub st, fun x hx => Or.inl (gbeFlush_buf_covered st hInv hsome x hx)⟩
    · injection h with h
      subst h
      exact hE
    · rw [hfb] at hx
      rcases List.mem_singleton.mp hx with rfl
      exact ⟨hs, hb⟩
  case isFalse hsome =>
    have hce : st.currentEntity = none := Option.not_isSome_iff_eq_none.mp hsome
    have hbempty : st.buf = [] := hInv.1 hce
    refine ⟨⟨fun h => Option.noConfusion h, fun e' h => ?_, fun x hx => ?_⟩,
      fun b hb' => hb', fun x hx => ?_⟩
    · injection h with h
      subst h
      exact hE
    · rw [hbempty] at hx
      rcases List.mem_singleton.mp hx with rfl
      exact ⟨hs, hb⟩
    · rw [hbempty] at hx
      exact absurd hx (List.not_mem_nil x)

theorem gbeStep_disposition (sec : Str) (st : GbeState) (ln : Str)
    (hInv : GbeInv st)
    (hpipe : sec = strL "PROJECTS" → (trimmed ln).contains '|' = true →
      is_bullet (trimmed ln) = false → extractProjectEntity ln ≠ []) :
    GbeInv (gbeStep sec st ln) ∧
    (∀ b ∈ st.blocks, b ∈ (gbeStep sec st ln).blocks) ∧
    (∀ x ∈ st.buf,
      (∃ b ∈ (gbeStep sec st ln).blocks, strContains b.content x = true) ∨
      x ∈ (gbeStep sec st ln).buf) ∧
    (trimmed ln ≠ [] → trimmed ln ∈ (gbeStep sec st ln).buf) := by
  rw [gbeStep]
  dsimp only
  by_cases hempty : (trimmed ln).isEmpty = true
  · rw [if_pos hempty]
    exact ⟨hInv, fun b hb => hb, fun x hx => Or.inr hx,
      fun hne => absurd (List.isEmpty_iff.mp hempty) hne⟩
  · rw [if_neg hempty]
    have hsne : trimmed ln ≠ [] := by
      intro h
      rw [h] at hempty
      exact hempty rfl
    have hbnd : nwBounded (trimmed ln) := trimmed_nwBounded ln
    by_cases hexp : (strL "PROFESSIONAL EXPERIENCE").isPrefixOf sec = true
    · rw [if_pos hexp]
      by_cases hcont : isSentenceLikeContinuation (trimmed ln) = true
      · rw [if_pos hcont]
        obtain ⟨e, he, hene⟩ := defaultEntity_ne_nil st hInv.2.1
        rw [he]
        exact ⟨append_disposition st hInv e _ hene hsne hbnd, fun b hb => hb,
          fun x hx => Or.inr (List.mem_append_left _ hx),
          fun _ => List.mem_append_right _ (List.mem_singleton.mpr rfl)⟩
      · rw [if_neg hcont]
        by_cases hcomp : is_probable_company_header (trimmed ln) = true
        · rw [if_pos hcomp]
          dsimp only
          have hcomne : trimmed ((splitOnEntitySep (trimmed ln)).headD []) ≠ [] :=
            company_ne_nil (trimmed ln) (trimmed_idem ln) hcomp
          obtain ⟨h1, h2, h3⟩ := flush_append_disposition st hInv
            (trimmed ((splitOnEntitySep (trimmed ln)).headD [])) (trimmed ln)
            (some (trimmed ((splitOnEntitySep (trimmed ln)).headD [])))
            hcomne hsne hbnd
          exact ⟨h1, h2, h3,
            fun _ => List.mem_append_right _ (List.mem_singleton.mpr rfl)⟩
        · rw [if_neg hcomp]
          by_cases hrole : is_probable_role_header (trimmed ln) = true
          · rw [if_pos hrole]
            obtain ⟨e, he, hene⟩ := defaultEntity_ne_nil st hInv.2.1
            rw [he]
            exact ⟨append_disposition st hInv e _ hene hsne hbnd, fun b hb => hb,
              fun x hx => Or.inr (List.mem_append_left _ hx),
              fun _ => List.mem_append_right _ (List.mem_singleton.mpr rfl)⟩
          · rw [if_neg hrole]
            obtain ⟨e, he, hene⟩ := defaultEntity_ne_nil st hInv.2.1
            rw [he]
            exact ⟨append_disposition st hInv e _ hene hsne hbnd, fun b hb => hb,
              fun x hx => Or.inr (List.mem_append_left _ hx),
              fun _ => List.mem_append_right _ (List.mem_singleton.mpr rfl)⟩
    · rw [if_neg hexp]
      by_cases hproj : sec = strL "PROJECTS"
      · rw [if_pos hproj]
        by_cases hpipeB : ((trimmed ln).contains '|' && !is_bullet (trimmed ln)) = true
        · rw [if_pos hpipeB]
          dsimp only
          have hcontains : (trimmed ln).contains '|' = true := band_left hpipeB
          have hnbul : is_bullet (trimmed ln) = false := by
            have h2 := band_right hpipeB
            simpa using h2
          have hene : extractProjectEntity (trimmed ln) ≠ [] := by
            rw [extractProjectEntity_trimmed]
            exact hpipe hproj hcontains hnbul
          obtain ⟨h1, h2, h3⟩ := flush_append_disposition st hInv
            (extractProjectEntity (trimmed ln)) (trimmed ln)
            st.currentCompany hene hsne hbnd
          exact ⟨h1, h2, h3,
            fun _ => List.mem_append_right _ (List.mem_singleton.mpr rfl)⟩
        · rw [if_neg hpipeB]
          by_cases hph : is_probable_project_header (trimmed ln) = true
          · rw [if_pos hph]
            dsimp only
            have hnb : is_bullet (trimmed ln) = false :=
              project_header_not_bullet (trimmed ln) (trimmed_idem ln) hph
            have hnc : (trimmed ln).contains '|' = false := by
              cases hc : (trimmed ln).contains '|' with
              | false => rfl
              | true =>
                exact absurd (show ((trimmed ln).contains '|' &&
                  !is_bullet (trimmed ln)) = true by rw [hc, hnb]; rfl) hpipeB
            have hene : extractProjectEntity (trimmed ln) ≠ [] := by
              rw [extractProjectEntity]
              rw [trimmed_idem, hnc, if_neg (by simp : ¬ ((false : Bool) = true))]
              exact hsne
            obtain ⟨h1, h2, h3⟩ := flush_append_disposition st hInv
              (extractProjectEntity (trimmed ln)) (trimmed ln)
              st.currentCompany hene hsne hbnd
            exact ⟨h1, h2, h3,
              fun _ => List.mem_append_right _ (List.mem_singleton.mpr rfl)⟩
          · rw [if_neg hph]
            obtain ⟨e, he, hene⟩ := defaultGeneral_ne_nil st.currentEntity hInv.2.1
            rw [he]
            exact ⟨append_disposition st hInv e _ hene hsne hbnd, fun b hb => hb,
              fun x hx => Or.inr (List.mem_append_left _ hx),
              fun _ => List.mem_append_right _ (List.mem_singleton.mpr rfl)⟩
      · rw [if_neg hproj]
        obtain ⟨e, he, hene⟩ := defaultGeneral_ne_nil st.currentEntity hInv.2.1
        rw [he]
        exact ⟨append_disposition st hInv e _ hene hsne hbnd, fun b hb => hb,
          fun x hx => Or.inr (List.mem_append_left _ hx),
          fun _ => List.mem_append_right _ (List.mem_singleton.mpr rfl)⟩

theorem gbe_fold_disposition (sec : Str) : ∀ (lines : List Str) (st : GbeState),
    GbeInv st →
    (∀ l ∈ lines, sec = strL "PROJECTS" → (trimmed l).contains '|' = true →
      is_bullet (trimmed l) = false → extractProjectEntity l ≠ []) →
    GbeInv (lines.foldl (gbeStep sec) st) ∧
    (∀ b ∈ st.blocks, b ∈ (lines.foldl (gbeStep sec) st).blocks) ∧
    (∀ x ∈ st.buf,
      (∃ b ∈ (lines.foldl (gbeStep sec) st).blocks, strContains b.content x = true) ∨
      x ∈ (lines.foldl (gbeStep sec) st).buf) ∧
    (∀ l ∈ lines, trimmed l ≠ [] →
      (∃ b ∈ (lines.foldl (gbeStep sec) st).blocks,
        strContains b.content (trimmed l) = true) ∨
      trimmed l ∈ (lines.foldl (gbeStep sec) st).buf) := by
  intro lines
  induction lines with
  | nil =>
    intro st hInv _
    exact ⟨hInv, fun b hb => hb, fun x hx => Or.inr hx,
      fun l hl => absurd hl (List.not_mem_nil l)⟩
  | cons a ls ih =>
    intro st hInv hpipe
    rw [List.foldl_cons]
    obtain ⟨s1, s2, s3, s4⟩ := gbeStep_disposition sec st a hInv
      (fun hsec hc hbl => hpipe a (List.mem_cons_self a ls) hsec hc hbl)
    obtain ⟨f1, f2, f3, f4⟩ := ih (gbeStep sec st a) s1
      (fun l hl => hpipe l (List.mem_cons_of_mem a hl))
    refine ⟨f1, fun b hb => f2 b (s2 b hb), ?_, ?_⟩
    · intro x hx
      rcases s3 x hx with ⟨b, hb1, hb2⟩ | hx'
      · exact Or.inl ⟨b, f2 b hb1, hb2⟩
      · exact f3 x hx'
    · intro l hl hlne
      rcases List.mem_cons.mp hl with rfl | hl'
      · exact f3 (trimmed l) (s4 hlne)
      · exact f4 l hl' hlne

theorem gbe_final_covered (st : GbeState) (hInv : GbeInv st) (x : Str)
    (hx : (∃ b ∈ st.blocks, strContains b.content x = true) ∨ x ∈ st.buf) :
    ∃ b ∈ (if entityTruthy st.currentEntity && !st.buf.isEmpty then
        st.blocks ++
          [⟨st.currentEntity.getD [], trimmed (List.intercalate (strL "\n") st.buf)⟩]
      else st.blocks), strContains b.content x = true := by
  rcases hx with ⟨b, hb1, hb2⟩ | hbuf
  · refine ⟨b, ?_, hb2⟩
    split
    · exact List.mem_append_left _ hb1
    · exact hb1
  · have hsome : st.currentEntity.isSome = true := by
      cases hce : st.currentEntity with
      | none =>
        rw [hInv.1 hce] at hbuf
        exact absurd hbuf (List.not_mem_nil x)
      | some e => rfl
    obtain ⟨e, he⟩ := Option.isSome_iff_exists.mp hsome
    obtain ⟨hxne, hxb⟩ := hInv.2.2 x hbuf
    have hcond : (entityTruthy st.currentEntity && !st.buf.isEmpty) = true := by
      rw [he]
      simp only [entityTruthy, Bool.and_eq_true, Bool.not_eq_true',
        List.isEmpty_eq_false]
      exact ⟨hInv.2.1 e he, List.ne_nil_of_mem hbuf⟩
    rw [if_pos hcond]
    exact ⟨⟨st.currentEntity.getD [], trimmed (List.intercalate (strL "\n") st.buf)⟩,
      List.mem_append_right _ (List.mem_singleton.mpr rfl),
      strContains_intercalate st.buf x hbuf hxne hxb⟩

/-- C6 (amended): `group_by_entity` drops no non-blank line PROVIDED that in
a PROJECTS section every non-bullet line containing a `|` separator has
non-whitespace text before its first `|` (otherwise the pipe branch opens an
entity named by the empty string, and the buffered lines under it are
discarded unflushed at the next entity boundary).  Under that proviso every
input line with non-whitespace content appears, as a contiguous substring of
its stripped form, in the content of some emitted block. -/
theorem c6_amended_theorem (sec : Str) (lines : List Str)
    (hpipe : ∀ l ∈ lines, sec = strL "PROJECTS" →
      (trimmed l).contains '|' = true → is_bullet (trimmed l) = false →
      extractProjectEntity l ≠ []) :
    ∀ l ∈ lines, trimmed l ≠ [] →
      ∃ b ∈ group_by_entity sec lines, strContains b.content (trimmed l) = true := by
  intro l hl hlne
  obtain ⟨f1, _, _, f4⟩ := gbe_fold_disposition sec lines ⟨[], none, [], none⟩
    ⟨fun _ => rfl, fun e h => Option.noConfusion h,
     fun x hx => absurd hx (List.not_mem_nil x)⟩ hpipe
  have key := gbe_final_covered (lines.foldl (gbeStep sec) ⟨[], none, [], none⟩) f1
    (trimmed l) (f4 l hl hlne)
  rw [group_by_entity]
  set F := lines.foldl (gbeStep sec) (⟨[], none, [], none⟩ : GbeState) with hF
  set B := if entityTruthy F.currentEntity && !F.buf.isEmpty then
      F.blocks ++
        [⟨F.currentEntity.getD [], trimmed (List.intercalate (strL "\n") F.buf)⟩]
    else F.blocks with hB
  obtain ⟨b, hb1, hb2⟩ := key
  have hBne : B ≠ [] := List.ne_nil_of_mem hb1
  have hcondF : ¬ ((B.isEmpty && !lines.isEmpty) = true) := fun hcond =>
    hBne (List.isEmpty_iff.mp (band_left hcond))
  rw [if_neg hcondF]
  exact ⟨b, hb1, hb2⟩

/-- C6 witness: in a PROJECTS section with a well-formed pipe header, every
non-blank line (here the detail line) ends up in some emitted block. -/
theorem c6_witness :
    ∃ b ∈ group_by_entity (strL "PROJECTS")
        [strL "Beta | x", strL "built the demo"],
      strContains b.content (trimmed (strL "built the demo")) = true :=
  c6_amended_theorem (strL "PROJECTS") [strL "Beta | x", strL "built the demo"]
    (by decide) (strL "built the demo") (by decide) (by decide)

/-- C6 counterexample: in a PROJECTS section the line `"| alpha"` (a pipe
line whose text before the `|` is empty) opens an entity named by the empty
string; at the next pipe header the flush guard `if current_entity and buf`
sees a falsy entity and discards the buffer, so `"| alpha"` appears in no
emitted block — `group_by_entity` does silently drop content. -/
theorem c6_counterexample :
    ¬ (∀ l ∈ [strL "| alpha", strL "Beta | x", strL "built the demo"],
        trimmed l ≠ [] →
        ∃ b ∈ group_by_entity (strL "PROJECTS")
            [strL "| alpha", strL "Beta | x", strL "built the demo"],
          strContains b.content (trimmed l) = true) := by decide

end PersonalChatbot
